import Mathlib

/-!
Verification development for the pulse-schedule engine in
`src/qiskit/pulse/schedule.py`.

The embedding translates the interval algebra, the per-channel timeslot
bookkeeping, and the `Schedule` / `ScheduleBlock` operations of the source
file into executable Lean definitions.  Python in-place mutation together
with exceptions is modelled by state passing: an operation that can raise
while having already mutated `self` returns `Except (PError × Schedule)
Schedule`, where the error value carries the post-mutation state of the
object at the moment the exception was raised.

Leaf operations (`Instruction`), the filter helper module
(`qiskit.pulse.filters`) and the pulse waveform classes are not part of
`src/`; where needed they are modelled from the specification, and each
such definition says so in its doc comment.
-/

/-- Channels are opaque hashable identifiers; the engine only compares them
for equality and sorts their names.  We identify a channel with its name
string (e.g. `DriveChannel(0)` is `"d0"`). -/
abbrev Chan := String

/-- Translation of the source alias `Interval = Tuple[int, int]` (the name
`Interval` itself is taken by Mathlib): a pair of a start time (inclusive)
and an end time (exclusive). -/
abbrev Ival := Int × Int

/-- The error kinds raised by the translated operations.  The source raises
`PulseError` everywhere; the constructor records which check fired
(overlap detection, the non-negative / integer time checks, the
removal-consistency check, or the `ScheduleBlock` unsupported-method
failures). -/
inductive PError where
  | overlap
  | timing
  | consistency
  | unsupported
deriving DecidableEq, Repr

/-- Modelled from the spec: a leaf operation is an opaque capability
`{channels() -> set of Channel, duration() -> integer}` with structural
equality (spec section 3 and section 6).  `Instruction` is not part of `src/`.
`payload` stands for the remaining internal fields that structural equality
compares; durations are non-negative integers
(`instruction_duration_validation`). -/
structure Inst where
  channels : List Chan
  duration : Nat
  payload : Nat
deriving DecidableEq, Repr

/-- Translation of `_overlaps` (schedule.py lines 1637-1646): two intervals
overlap iff, after swapping so the first starts no later, the second's
start is strictly before the first's stop; the initial branch returns
`False` when the second interval is zero length and shares the first's
start. -/
def _overlaps (first second : Ival) : Bool :=
  if first.1 = second.1 ∧ second.1 = second.2 then false
  else if first.1 > second.1 then decide (first.1 < second.2)
  else decide (second.1 < first.2)

/-- Recursion core of `_locate_interval_index` (schedule.py lines
1594-1614).  The source recurses on list slices; the extra fuel argument is
only a termination measure (the initial fuel `intervals.length` always
suffices because both slices are strictly shorter), so that the function
reduces by kernel computation. -/
def locGo : Nat → List Ival → Ival → Nat → Nat
  | 0, _, _, index => index
  | fuel + 1, intervals, interval, index =>
    if intervals.length ≤ 1 then index
    else
      let midIdx := intervals.length / 2
      let mid := intervals.getD midIdx (0, 0)
      if interval.2 ≤ mid.1 ∧ interval ≠ mid then
        locGo fuel (intervals.take midIdx) interval index
      else
        locGo fuel (intervals.drop midIdx) interval (index + midIdx)

/-- Translation of `_locate_interval_index`: binary search on start times
returning the index at which `interval` occurs or would be inserted. -/
def _locate_interval_index (intervals : List Ival) (interval : Ival)
    (index : Nat := 0) : Nat :=
  locGo intervals.length intervals interval index

/-- Translation of `_find_insertion_index` (schedule.py lines 1617-1634):
locate a candidate index, fail if the interval found there overlaps the new
interval, otherwise return the candidate (unchanged when the new interval
stops before the candidate starts, else one further right). -/
def _find_insertion_index (intervals : List Ival) (new_interval : Ival) :
    Except PError Nat :=
  let index := _locate_interval_index intervals new_interval
  if index < intervals.length then
    if _overlaps (intervals.getD index (0, 0)) new_interval then .error .overlap
    else .ok (if new_interval.2 ≤ (intervals.getD index (0, 0)).1 then index else index + 1)
  else .ok index

/-- Translation of `_check_nonnegative_timeslot` (schedule.py lines
1649-1658), as a boolean: `true` means every non-empty channel list starts
at a non-negative time (the source checks only the first interval of each
channel). -/
def _check_nonnegative_timeslot (timeslots : List (Chan × List Ival)) : Bool :=
  timeslots.all fun p =>
    match p.2 with
    | [] => true
    | iv :: _ => decide (0 ≤ iv.1)

/-- Shift an interval by `t`, as done inline throughout `_add_timeslots`,
`_remove_timeslots` and `_mutable_shift`. -/
def shiftIv (t : Int) (iv : Ival) : Ival := (iv.1 + t, iv.2 + t)

mutual
/-- A schedule component: either a leaf `Instruction` or a nested
`Schedule` (the source's `ScheduleComponent = Union[Schedule, Instruction]`). -/
inductive Component where
  | inst : Inst → Component
  | sched : Schedule → Component
/-- The `Schedule` state: the cached `_duration`, the `_timeslots` mapping
(a Python dict, i.e. an insertion-ordered association list from channels to
interval lists), and the `_children` list of `(start_time, component)`
pairs.  Name, metadata and the parameter manager carry no timing semantics
and are omitted. -/
inductive Schedule where
  | mk : Int → List (Chan × List Ival) → ChildList → Schedule
/-- The children of a schedule, `(offset, component)` pairs in insertion
order.  A separate inductive (rather than `List`) keeps all recursion over
schedules structural, so that concrete schedules evaluate by `decide`. -/
inductive ChildList where
  | nil : ChildList
  | cons : Int → Component → ChildList → ChildList
end

def Schedule.duration : Schedule → Int
  | .mk d _ _ => d

def Schedule.timeslots : Schedule → List (Chan × List Ival)
  | .mk _ ts _ => ts

def Schedule.childList : Schedule → ChildList
  | .mk _ _ c => c

/-- Translation of the `Schedule.channels` property: the keys of the
timeslot dict, in insertion order. -/
def Schedule.channels (s : Schedule) : List Chan := s.timeslots.map Prod.fst

/-- A fresh `Schedule()` as produced by `__init__` with no children. -/
def emptySchedule : Schedule := .mk 0 [] .nil

def ChildList.toList : ChildList → List (Int × Component)
  | .nil => []
  | .cons t c rest => (t, c) :: rest.toList

/-- Append one `(start_time, component)` pair at the end of the children
list (`self._children.append(...)`). -/
def ChildList.push : ChildList → Int → Component → ChildList
  | .nil, t, c => .cons t c .nil
  | .cons t0 c0 rest, t, c => .cons t0 c0 (rest.push t c)

/-- Shift every recorded child offset (`_mutable_shift`'s rebuild of
`self._children`). -/
def ChildList.mapOffset (d : Int) : ChildList → ChildList
  | .nil => .nil
  | .cons t c rest => .cons (t + d) c (rest.mapOffset d)

/-- Rewrite each child through `f`, keeping offsets (the scan in
`Schedule.replace`). -/
def ChildList.mapChild (f : Component → Component) : ChildList → ChildList
  | .nil => .nil
  | .cons t c rest => .cons t (f c) (rest.mapChild f)

/-- Dictionary lookup in the timeslot map (`channel in self._timeslots` /
`self._timeslots[channel]`). -/
def lookupCh (ch : Chan) : List (Chan × List Ival) → Option (List Ival)
  | [] => none
  | (c, v) :: rest => if c = ch then some v else lookupCh ch rest

/-- Dictionary assignment `self._timeslots[channel] = l`: replace the entry
in place if the key exists, else append a new entry (Python dicts preserve
insertion order). -/
def upsert (ch : Chan) (l : List Ival) :
    List (Chan × List Ival) → List (Chan × List Ival)
  | [] => [(ch, l)]
  | (c, v) :: rest => if c = ch then (ch, l) :: rest else (c, v) :: upsert ch l rest

/-- Translation of `_get_timeslots` (schedule.py lines 1661-1679): an
instruction occupies `[(0, duration)]` on each of its channels; a schedule
contributes its own timeslot map.  `instruction_duration_validation` always
succeeds here because `Inst.duration` is a natural number. -/
def _get_timeslots : Component → List (Chan × List Ival)
  | .inst i => i.channels.map fun ch => (ch, [((0 : Int), (i.duration : Int))])
  | .sched s => s.timeslots

/-- The `channels` of a component (`Instruction.channels` is the opaque
channel set of the leaf; `Schedule.channels` the timeslot keys). -/
def compChannels : Component → List Chan
  | .inst i => i.channels
  | .sched s => s.channels

/-- The `duration` of a component. -/
def compDuration : Component → Int
  | .inst i => (i.duration : Int)
  | .sched s => s.duration

/-- The per-channel merge loop inside `_add_timeslots` (schedule.py lines
711-736) for one channel that already exists in `self._timeslots`:
`cur` is the current list of the channel, the second argument the not yet
processed intervals of the inserted component.  If the next interval
(shifted by `time`) starts at or after the current last stop, the remaining
intervals are appended wholesale; otherwise it is placed via
`_find_insertion_index`, whose failure is re-raised (with a decorated
message) carrying the list as mutated so far.  The `cur ≠ []` guard mirrors
the source's `self._timeslots[channel][-1]`, which presupposes a non-empty
list (the engine never stores an empty channel list). -/
def mergeChannel (time : Int) : List Ival → List Ival →
    Except (PError × List Ival) (List Ival)
  | cur, [] => .ok cur
  | cur, x :: rest =>
    if (cur.getLastD (0, 0)).2 ≤ x.1 + time ∧ cur ≠ [] then
      .ok (cur ++ (x :: rest).map (shiftIv time))
    else
      match _find_insertion_index cur (shiftIv time x) with
      | .error _ => .error (.overlap, cur)
      | .ok idx => mergeChannel time (cur.insertIdx idx (shiftIv time x)) rest

def setTs (s : Schedule) (ts : List (Chan × List Ival)) : Schedule :=
  .mk s.duration ts s.childList

def setDur (s : Schedule) (d : Int) : Schedule :=
  .mk d s.timeslots s.childList

/-- The channel loop of `_add_timeslots` (schedule.py lines 701-736): for
each channel of the inserted component, either install the (shifted) list
as a fresh dict entry — copied unshifted when `time == 0` — or merge it
into the existing entry with `mergeChannel`.  A failure carries the
schedule state at the moment of the raise: earlier channels stay merged and
the failing channel keeps the intervals inserted before the collision. -/
def goChans (time : Int) (other : List (Chan × List Ival)) :
    List Chan → Schedule → Except (PError × Schedule) Schedule
  | [], s => .ok s
  | ch :: rest, s =>
    let ol := (lookupCh ch other).getD []
    match lookupCh ch s.timeslots with
    | none =>
      let nl := if time = 0 then ol else ol.map (shiftIv time)
      goChans time other rest (setTs s (upsert ch nl s.timeslots))
    | some exl =>
      match mergeChannel time exl ol with
      | .error (e, done) => .error (e, setTs s (upsert ch done s.timeslots))
      | .ok merged => goChans time other rest (setTs s (upsert ch merged s.timeslots))

/-- Translation of `Schedule._add_timeslots` (schedule.py lines 685-738).
The cached duration is raised to `max(old, time + component.duration)`
*before* any channel is merged; then every channel of the component is
merged; finally `_check_nonnegative_timeslot` may still reject the result.
The `np.issubdtype(type(time), np.integer)` guard always passes because
`time : Int`.  On failure the error carries the partially mutated state,
exactly as the Python object is left when the exception propagates. -/
def _add_timeslots (time : Int) (comp : Component) (s : Schedule) :
    Except (PError × Schedule) Schedule :=
  let other := _get_timeslots comp
  let s1 := setDur s (max s.duration (time + compDuration comp))
  match goChans time other (compChannels comp) s1 with
  | .error e => .error e
  | .ok s2 =>
    if _check_nonnegative_timeslot s2.timeslots then .ok s2 else .error (.timing, s2)

/-- The `DriveChannel` indices hard-coded as "DP channels" in
`_mutable_insert` and `append` (schedule.py lines 424-425 and 600-601). -/
def dpChans : List Chan := ["d24", "d1"]

/-- The guard of the special drive-channel merging path in
`_mutable_insert` (schedule.py lines 429-430): the inserted component is a
`Schedule` that has at least one non-DP channel and shares at least one DP
channel with `self`. -/
def dpTriggers (s : Schedule) (c : Component) : Bool :=
  match c with
  | .inst _ => false
  | .sched sub =>
    !(sub.channels.filter (fun ch => decide (ch ∉ dpChans))).isEmpty &&
      !((s.channels.filter (fun ch => decide (ch ∈ sub.channels))).filter
          (fun ch => decide (ch ∈ dpChans))).isEmpty

/-- Translation of `Schedule._mutable_insert` (schedule.py lines 413-561)
restricted to inputs on which the drive-channel merging guard
(`dpTriggers`, lines 429-430) is false: update the timeslots via
`_add_timeslots` and append the `(start_time, component)` pair to the
children.  The merging body (lines 431-555) rewrites instructions through
`qiskit.pulse.filters` and `Pulse.merge`, which are outside `src/` and
excluded from the core contract by the spec (section 9, "NOT included as a
core requirement"); every theorem about insertion therefore assumes
`dpTriggers s c = false`.  The parameter-table update carries no timing
semantics and is omitted. -/
def _mutable_insert (start_time : Int) (schedule : Component) (s : Schedule) :
    Except (PError × Schedule) Schedule :=
  match _add_timeslots start_time schedule s with
  | .error e => .error e
  | .ok s2 => .ok (.mk s2.duration s2.timeslots (s2.childList.push start_time schedule))

/-- Translation of `Schedule._immutable_insert` (schedule.py lines
563-578): build a fresh schedule, mutably insert `self` at 0 and the new
component at `start_time`.  `self` is never touched, so an error returns no
schedule state.  Both inner inserts start from schedules whose channel set
makes the drive-channel guard behave as in the in-place case (the first
target is empty; the second has exactly `self`'s channels). -/
def _immutable_insert (start_time : Int) (schedule : Component) (s : Schedule) :
    Except PError Schedule :=
  match _mutable_insert 0 (.sched s) emptySchedule with
  | .error (e, _) => .error e
  | .ok ns =>
    match _mutable_insert start_time schedule ns with
    | .error (e, _) => .error e
    | .ok r => .ok r

/-- Translation of `Schedule.insert` (schedule.py lines 393-411):
dispatch on `inplace`.  For the copy-on-write variant the error state is
`self`, which the operation leaves untouched. -/
def Schedule.insert (start_time : Int) (schedule : Component) (inplace : Bool)
    (s : Schedule) : Except (PError × Schedule) Schedule :=
  if inplace then _mutable_insert start_time schedule s
  else
    match _immutable_insert start_time schedule s with
    | .error e => .error (e, s)
    | .ok r => .ok r

/-- Translation of `Schedule._mutable_shift` (schedule.py lines 370-391):
shift every channel's intervals and every child offset by `time`, add
`time` to the cached duration; `_check_nonnegative_timeslot` rejects the
result before any field is written (the shifted map is built into a local
first), so on failure no state changes and no state is returned.  The
`isinstance(time, int)` guard always passes because `time : Int`. -/
def _mutable_shift (time : Int) (s : Schedule) : Except PError Schedule :=
  let ts := s.timeslots.map fun p => (p.1, p.2.map (shiftIv time))
  if _check_nonnegative_timeslot ts then
    .ok (.mk (s.duration + time) ts (s.childList.mapOffset time))
  else .error .timing

/-- Translation of `Schedule._immutable_shift` (schedule.py lines 358-368):
a fresh schedule into which `self` is mutably inserted at `time`.  The
drive-channel guard is false there because the fresh target has no
channels. -/
def _immutable_shift (time : Int) (s : Schedule) : Except PError Schedule :=
  match _mutable_insert time (.sched s) emptySchedule with
  | .error (e, _) => .error e
  | .ok r => .ok r

/-- Translation of `Schedule.shift` (schedule.py lines 345-356). -/
def Schedule.shift (time : Int) (inplace : Bool) (s : Schedule) :
    Except PError Schedule :=
  if inplace then _mutable_shift time s else _immutable_shift time s

mutual
/-- Translation of `Schedule._instructions` (schedule.py lines 331-343):
recursively flatten the children, accumulating the parent offset.  An
instruction child yields itself at the accumulated time (the behaviour of
`Instruction._instructions`, modelled from the spec's
`flatten() -> ordered sequence of (absolute_time, leaf)`). -/
def instRecs (time : Int) : Schedule → List (Int × Inst)
  | .mk _ _ cs => instRecsCL time cs
def instRecsCL (time : Int) : ChildList → List (Int × Inst)
  | .nil => []
  | .cons t c rest => instRecsC (time + t) c ++ instRecsCL time rest
def instRecsC (time : Int) : Component → List (Int × Inst)
  | .inst i => [(time, i)]
  | .sched s => instRecs time s
end

/-- The `sorted(chan.name for chan in inst.channels)` part of the sort key
in `Schedule.instructions` (schedule.py line 288). -/
def sortedNames (i : Inst) : List String :=
  List.insertionSort (fun a b : String => a ≤ b) i.channels

/-- Python's `<=` on lists of strings: lexicographic, first differing
element decides, a prefix precedes its extensions. -/
def strListLe : List String → List String → Bool
  | [], _ => true
  | _ :: _, [] => false
  | a :: as, b :: bs => if a = b then strListLe as bs else decide (a < b)

/-- The sort key comparison of `Schedule.instructions` (schedule.py lines
286-288): by start time, then instruction duration, then the sorted channel
names, exactly the tuple order Python's `sorted(..., key=key)` uses. -/
def keyLe (p q : Int × Inst) : Bool :=
  decide (p.1 < q.1) ||
    (decide (p.1 = q.1) &&
      (decide (p.2.duration < q.2.duration) ||
        (decide (p.2.duration = q.2.duration) &&
          strListLe (sortedNames p.2) (sortedNames q.2))))

/-- `keyLe` as a relation, for `List.insertionSort`. -/
def instRel (p q : Int × Inst) : Prop := keyLe p q = true

instance : DecidableRel instRel := fun p q => instDecidableEqBool (keyLe p q) true

/-- Translation of the `Schedule.instructions` property (schedule.py lines
282-290): the flattened `(time, instruction)` pairs sorted by `keyLe`.
Python's `sorted` is a stable sort; insertion sort is stable and therefore
produces the identical list. -/
def Schedule.instructions (s : Schedule) : List (Int × Inst) :=
  List.insertionSort instRel (instRecs 0 s)

/-- Python set equality of two channel collections (`set(a) == set(b)`). -/
def chanSetEq (a b : List Chan) : Bool :=
  a.all (fun c => decide (c ∈ b)) && b.all (fun c => decide (c ∈ a))

/-- Translation of `Schedule.__eq__` (schedule.py lines 934-966): same
channel set, same instruction count, and pairwise equal `(time,
instruction)` entries of the sorted flattened sequences. -/
def schedEq (x y : Schedule) : Bool :=
  chanSetEq x.channels y.channels &&
    decide (x.instructions.length = y.instructions.length) &&
    (x.instructions.zip y.instructions).all fun pq => decide (pq.1 = pq.2)

/-- The schedule-shaped view of an instruction used when `Schedule.__eq__`
compares a schedule against an `Instruction` ("we consider Instruction is a
subtype of schedule"): it exposes the instruction's channels and the single
flattened entry `(0, instruction)`.  Modelled from the spec's leaf
capability, since `Instruction` is outside `src/`. -/
def instWrapSched (i : Inst) : Schedule :=
  .mk (i.duration : Int) (i.channels.map fun ch => (ch, [((0 : Int), (i.duration : Int))]))
    (.cons 0 (.inst i) .nil)

/-- Equality test between children as used by `Schedule.replace`'s scan
(`child == old`).  Two instructions compare structurally (modelled from the
spec: leaf equality is structural); two schedules compare via
`Schedule.__eq__`; a schedule compares with an instruction through
`instWrapSched`; an instruction never equals a schedule (`Instruction.__eq__`
requires the same type). -/
def componentEq : Component → Component → Bool
  | .inst i, .inst j => decide (i = j)
  | .sched a, .sched b => schedEq a b
  | .sched a, .inst j => schedEq a (instWrapSched j)
  | .inst _, .sched _ => false

/-- Re-add a list of flattened instructions one by one (the loop of
`_renew_timeslots`), threading failure states. -/
def addAll : List (Int × Inst) → Schedule → Except (PError × Schedule) Schedule
  | [], s => .ok s
  | (t, i) :: rest, s =>
    match _add_timeslots t (.inst i) s with
    | .error e => .error e
    | .ok s2 => addAll rest s2

/-- Translation of `Schedule._renew_timeslots` (schedule.py lines 790-794):
clear the timeslot map, then re-add every entry of `self.instructions`.
Note that the cached duration is *not* reset; each `_add_timeslots` call
only takes a maximum with it. -/
def _renew_timeslots (s : Schedule) : Except (PError × Schedule) Schedule :=
  let s0 : Schedule := .mk s.duration [] s.childList
  addAll s0.instructions s0

/-- The fold of `Schedule.replace`'s copy-on-write branch: insert each
`(time, child)` pair into a fresh schedule in order. -/
def insAll : List (Int × Component) → Schedule → Except (PError × Schedule) Schedule
  | [], s => .ok s
  | (t, c) :: rest, s =>
    match _mutable_insert t c s with
    | .error e => .error e
    | .ok s2 => insAll rest s2

/-- Translation of `Schedule.replace` (schedule.py lines 796-881): scan the
immediate children for equality with `old`, substituting `new`.  In place:
install the new children and rebuild the timeslots with
`_renew_timeslots`.  Copy on write: re-insert every (possibly replaced)
child into a fresh schedule, re-raising any failure as an overlap error and
leaving `self` untouched. -/
def Schedule.replace (old new : Component) (inplace : Bool) (s : Schedule) :
    Except (PError × Schedule) Schedule :=
  let newChildren := s.childList.mapChild fun c => if componentEq c old then new else c
  if inplace then _renew_timeslots (.mk s.duration s.timeslots newChildren)
  else
    match insAll newChildren.toList emptySchedule with
    | .error _ => .error (.overlap, s)
    | .ok r => .ok r

/-- Translation of `Schedule.ch_start_time` (schedule.py lines 305-317):
the minimum first-interval start over the supplied channels that are
present in the timeslot map; `0` when that collection is empty (the
`ValueError` branch).  A present channel never maps to an empty interval
list, so the `headD` default is never read. -/
def Schedule.ch_start_time (s : Schedule) (channels : List Chan) : Int :=
  let firsts := channels.filterMap fun ch =>
    (lookupCh ch s.timeslots).map fun ivs => (ivs.headD (0, 0)).1
  match firsts with
  | [] => 0
  | x :: xs => xs.foldl min x

/-- Translation of `Schedule.ch_stop_time` (schedule.py lines 318-329): the
maximum last-interval stop over the supplied channels present in the map,
`0` when none is. -/
def Schedule.ch_stop_time (s : Schedule) (channels : List Chan) : Int :=
  let lasts := channels.filterMap fun ch =>
    (lookupCh ch s.timeslots).map fun ivs => (ivs.getLastD (0, 0)).2
  match lasts with
  | [] => 0
  | x :: xs => xs.foldl max x

/-- Translation of the `Schedule.start_time` property (schedule.py lines
251-254). -/
def Schedule.start_time (s : Schedule) : Int :=
  s.ch_start_time s.channels

/-- The channels shared between a schedule and a component
(`set(self.channels) & set(schedule.channels)`), the set the claim and the
`append` docstring say the insertion offset ranges over. -/
def sharedChannels (s : Schedule) (c : Component) : List Chan :=
  s.channels.filter fun ch => decide (ch ∈ compChannels c)

/-- The insertion offset computed by `Schedule.append` (schedule.py lines
597-608): when the appended component's channels are all DP channels or
contain no DP channel, the offset is the maximum stop time over the shared
channels; otherwise the DP channels are removed from the shared set first. -/
def appendStartTime (s : Schedule) (c : Component) : Int :=
  let schedChans := compChannels c
  let common :=
    if (schedChans.filter (fun ch => decide (ch ∉ dpChans))).isEmpty ||
        (schedChans.filter (fun ch => decide (ch ∈ dpChans))).isEmpty then
      s.channels.filter fun ch => decide (ch ∈ schedChans)
    else
      (s.channels.filter fun ch => decide (ch ∈ schedChans)).filter fun ch =>
        decide (ch ∉ dpChans)
  s.ch_stop_time common

/-- Translation of `Schedule.append` (schedule.py lines 580-612): compute
the offset with `appendStartTime` and delegate to `insert`. -/
def Schedule.append (schedule : Component) (inplace : Bool) (s : Schedule) :
    Except (PError × Schedule) Schedule :=
  s.insert (appendStartTime s schedule) schedule inplace

/-- Modelled from the spec: `Schedule.filter` delegates to
`qiskit.pulse.filters.composite_filter` / `filter_instructions`, which are
not in `src/`.  Per spec section 4.3 the result contains exactly the
flattened `(time, leaf)` pairs satisfying all supplied predicates; this
model returns that flattened sequence directly. -/
def filterInsts (preds : List ((Int × Inst) → Bool)) (s : Schedule) :
    List (Int × Inst) :=
  s.instructions.filter fun ti => preds.all fun p => p ti

/-- Modelled from the spec: `Schedule.exclude` is the complement of
`filter` over the identical predicate set (`filter_instructions` with
`negate=True`), keeping the pairs failing at least one predicate. -/
def excludeInsts (preds : List ((Int × Inst) → Bool)) (s : Schedule) :
    List (Int × Inst) :=
  s.instructions.filter fun ti => !(preds.all fun p => p ti)

/-- The `ScheduleBlock` state (schedule.py lines 991-1477): an alignment
context and the ordered child list; `alignment` is an opaque identifier for
the pluggable alignment policy (spec section 4.4), and blocks may nest. -/
inductive ScheduleBlock where
  | mk : (alignment : Nat) → (blocks : List (Inst ⊕ ScheduleBlock)) → ScheduleBlock

/-- The argument record of `ScheduleBlock.filter` / `ScheduleBlock.exclude`
(schedule.py lines 1254-1339): predicate functions, channel / instruction
type / time range / interval selectors, and the subroutine flag.
Instruction types are opaque identifiers. -/
structure FilterArgs where
  filterFuncs : List ((Int × Inst) → Bool)
  channels : Option (List Chan)
  instructionTypes : Option (List Nat)
  timeRanges : Option (List Ival)
  intervals : Option (List Ival)
  checkSubroutine : Bool

/-- Translation of `ScheduleBlock.filter` (schedule.py lines 1254-1297):
unconditionally raises `PulseError` — the block representation has no
explicit instruction times — before reading any argument or touching the
block. -/
def ScheduleBlock.filter (_b : ScheduleBlock) (_args : FilterArgs) :
    Except PError Schedule :=
  .error .unsupported

/-- Translation of `ScheduleBlock.exclude` (schedule.py lines 1299-1339):
unconditionally raises `PulseError`, like `filter`. -/
def ScheduleBlock.exclude (_b : ScheduleBlock) (_args : FilterArgs) :
    Except PError Schedule :=
  .error .unsupported

/-- Executable form of the hypothesis of the insertion claims: some channel
of the component, shifted to the chosen offset, overlaps an existing
interval of the target schedule. -/
def overlapAtB (t : Int) (c : Component) (s : Schedule) : Bool :=
  (compChannels c).any fun ch =>
    match lookupCh ch s.timeslots, lookupCh ch (_get_timeslots c) with
    | some exl, some cl => cl.any fun x => exl.any fun e => _overlaps e (shiftIv t x)
    | _, _ => false

/-- Invariant I1's chain form for one channel: each interval stops no later
than the next one starts. -/
def ChainedIvs (l : List Ival) : Prop := l.Chain' fun a b => a.2 ≤ b.1

/-- Every interval of the list is proper: start ≤ stop. -/
def ProperIvs (l : List Ival) : Prop := ∀ iv ∈ l, iv.1 ≤ iv.2

/-- Invariant I2 for one channel: every start is non-negative. -/
def NonnegIvs (l : List Ival) : Prop := ∀ iv ∈ l, 0 ≤ iv.1

/-- Well-formedness of a timeslot map: distinct channel keys, and each
channel's list chained, proper, non-negative and non-empty — the state
every schedule reachable by the public API maintains (spec invariants
I1/I2). -/
def WfTs (ts : List (Chan × List Ival)) : Prop :=
  (ts.map Prod.fst).Nodup ∧
    ∀ p ∈ ts, ChainedIvs p.2 ∧ ProperIvs p.2 ∧ NonnegIvs p.2 ∧ p.2 ≠ []

/-- Well-formedness of a component: instructions are always well formed
(their timeslots are singletons `[(0, duration)]` with a natural duration);
a nested schedule must carry a well-formed timeslot map. -/
def WfComp : Component → Prop
  | .inst _ => True
  | .sched s => WfTs s.timeslots

/-- Fixture: the duration-100 leaf on channel `d0` used by the replace and
insert scenarios. -/
def oldInst : Inst := ⟨["d0"], 100, 0⟩

/-- Fixture: a duration-50 leaf on channel `d0`, structurally different
from `oldInst`. -/
def newInst : Inst := ⟨["d0"], 50, 1⟩

/-- Fixture: the schedule produced by inserting `oldInst` at time 0 into an
empty schedule: duration 100, one channel `d0` with `[(0, 100)]`. -/
def schedOld : Schedule := .mk 100 [("d0", [(0, 100)])] (.cons 0 (.inst oldInst) .nil)

/-- Fixture: another duration-100 leaf on `d0`, to collide with
`schedOld`. -/
def clashInst : Inst := ⟨["d0"], 100, 1⟩

/-- Fixture: a duration-100 leaf on the DP channel `d1`. -/
def instD1 : Inst := ⟨["d1"], 100, 0⟩

/-- Fixture: the schedule holding `instD1` at time 0. -/
def schedD1 : Schedule := .mk 100 [("d1", [(0, 100)])] (.cons 0 (.inst instD1) .nil)

/-- Fixture: a duration-50 leaf spanning the DP channel `d1` and the
ordinary channel `d0`. -/
def instMix : Inst := ⟨["d1", "d0"], 50, 1⟩

/-- Fixture: the state `schedOld` is left in by the in-place `replace` of
`oldInst` with `newInst`. -/
def replacedSched : Schedule := .mk 100 [("d0", [(0, 50)])] (.cons 0 (.inst newInst) .nil)

/-- C2 counterexample: the claim says a zero-length interval overlaps
nothing, including an interval strictly containing its point; but
`_overlaps (0, 10) (5, 5)` is `true` — the zero-length interval at 5 does
overlap `[0, 10)` under the source's test. -/
theorem overlaps_zero_length_cex : _overlaps (0, 10) (5, 5) = true := by decide

/-- C2 (amended): for proper intervals (start ≤ stop), `_overlaps a b`
holds iff the two intervals start at the same point and are both
non-degenerate, or one starts strictly inside the other.  In particular a
zero-length interval overlaps nothing that shares its start (including
another zero-length interval), but does overlap any interval strictly
containing its point. -/
theorem overlaps_characterization (a b : Ival) (ha : a.1 ≤ a.2) (hb : b.1 ≤ b.2) :
    _overlaps a b = true ↔
      (a.1 = b.1 ∧ a.1 < a.2 ∧ b.1 < b.2) ∨
        (a.1 < b.1 ∧ b.1 < a.2) ∨ (b.1 < a.1 ∧ a.1 < b.2) := by
  unfold _overlaps
  split_ifs with h1 h2
  · simp only [Bool.false_eq_true, false_iff]
    omega
  · simp only [decide_eq_true_eq]
    omega
  · simp only [decide_eq_true_eq]
    omega

/-- Witness for C2's amended characterization at concrete proper
intervals: `[0, 10)` and `[5, 9)` overlap because 5 lies strictly inside
`[0, 10)`. -/
theorem overlaps_characterization_witness :
    ((0, 10) : Ival).1 ≤ ((0, 10) : Ival).2 ∧
      (((0:Int), (9:Int)) : Ival).1 ≤ (((5:Int), (9:Int)) : Ival).2 ∧
      (_overlaps (0, 10) (5, 9) = true ↔
        ((((0:Int),(10:Int)).1 = ((5:Int),(9:Int)).1 ∧ (0:Int) < 10 ∧ (5:Int) < 9) ∨
          (((0:Int),(10:Int)).1 < ((5:Int),(9:Int)).1 ∧ ((5:Int),(9:Int)).1 < ((0:Int),(10:Int)).2) ∨
          (((5:Int),(9:Int)).1 < ((0:Int),(10:Int)).1 ∧ ((0:Int),(10:Int)).1 < ((5:Int),(9:Int)).2))) :=
  ⟨by decide, by decide, overlaps_characterization (0, 10) (5, 9) (by decide) (by decide)⟩

/-- C3: the `append` docstring (and the claim) state the insertion offset
is the maximum stop time over the channels shared between `self` and
`schedule`; but for a component holding both a DP channel (`d1`) and an
ordinary channel (`d0`) the source removes the DP channels from the shared
set, so appending to a schedule occupying `[0, 100)` on `d1` computes
offset 0 although the shared channel set is `{d1}` with stop time 100. -/
theorem append_offset_excludes_dp :
    appendStartTime schedD1 (.inst instMix) = 0 ∧
      sharedChannels schedD1 (.inst instMix) = ["d1"] ∧
      schedD1.ch_stop_time (sharedChannels schedD1 (.inst instMix)) = 100 :=
  ⟨rfl, rfl, rfl⟩

/-- C4: after the in-place `replace` of the duration-100 leaf by a
duration-50 leaf, `_renew_timeslots` rebuilds the timeslot map (last stop
50) but never resets the cached duration, which stays 100 — contradicting
the invariant that the cached duration equals the maximum last-interval
stop over all channels. -/
theorem replace_inplace_stale_duration :
    Schedule.replace (.inst oldInst) (.inst newInst) true schedOld = .ok replacedSched ∧
      replacedSched.duration = 100 ∧
      replacedSched.ch_stop_time replacedSched.channels = 50 :=
  ⟨rfl, rfl, rfl⟩

/-- C8: `ScheduleBlock.filter` and `ScheduleBlock.exclude` raise an
unsupported-operation `PulseError` for every block and every argument
combination, never returning a result (and, being failures taken before any
state is read or written, never mutating the block). -/
theorem scheduleBlock_filter_exclude_unsupported (b : ScheduleBlock) (args : FilterArgs) :
    b.filter args = .error .unsupported ∧ b.exclude args = .error .unsupported :=
  ⟨rfl, rfl⟩

/-- C10: when none of the supplied channels is present in the timeslot map
— no channels, unknown channels, or an empty schedule — `ch_start_time`
and `ch_stop_time` return 0 rather than failing; consequently the
`start_time` of an empty schedule is 0. -/
theorem ch_times_no_intervals (s : Schedule) (chans : List Chan)
    (h : ∀ c ∈ chans, lookupCh c s.timeslots = none) :
    s.ch_start_time chans = 0 ∧ s.ch_stop_time chans = 0 ∧
      emptySchedule.start_time = 0 := by
  have h1 : ∀ f : List Ival → Int,
      chans.filterMap (fun ch => (lookupCh ch s.timeslots).map f) = [] := by
    intro f
    rw [List.filterMap_eq_nil_iff]
    intro a ha
    simp [h a ha]
  refine ⟨?_, ?_, rfl⟩
  · unfold Schedule.ch_start_time
    rw [h1]
  · unfold Schedule.ch_stop_time
    rw [h1]

/-- Witness for C10 at a concrete input: querying `schedOld` for the absent
channel `q7` yields 0 for both channel time bounds. -/
theorem ch_times_no_intervals_witness :
    schedOld.ch_start_time ["q7"] = 0 ∧ schedOld.ch_stop_time ["q7"] = 0 ∧
      emptySchedule.start_time = 0 :=
  ch_times_no_intervals schedOld ["q7"] (by decide)

/-- C6: for every schedule and every predicate set, the modelled `filter`
and `exclude` results partition the flattened instruction sequence: no pair
belongs to both, and a pair belongs to one of them iff it belongs to the
schedule's instruction sequence. -/
theorem filter_exclude_partition (s : Schedule)
    (preds : List ((Int × Inst) → Bool)) (x : Int × Inst) :
    ¬(x ∈ filterInsts preds s ∧ x ∈ excludeInsts preds s) ∧
      (x ∈ filterInsts preds s ∨ x ∈ excludeInsts preds s ↔ x ∈ s.instructions) := by
  unfold filterInsts excludeInsts
  constructor
  · rintro ⟨h1, h2⟩
    rw [List.mem_filter] at h1 h2
    rcases h1 with ⟨-, hp⟩
    rcases h2 with ⟨-, hn⟩
    simp [hp] at hn
  · constructor
    · rintro (h | h) <;> exact (List.mem_filter.mp h).1
    · intro h
      by_cases hp : (preds.all fun p => p x) = true
      · exact Or.inl (List.mem_filter.mpr ⟨h, hp⟩)
      · refine Or.inr (List.mem_filter.mpr ⟨h, ?_⟩)
        simp [hp]

/-- `strListLe` is total: one of the two comparisons always holds. -/
theorem strListLe_total : ∀ x y : List String, strListLe x y = true ∨ strListLe y x = true
  | [], _ => Or.inl rfl
  | _ :: _, [] => Or.inr rfl
  | a :: as, b :: bs => by
    by_cases hab : a = b
    · subst hab
      simpa [strListLe] using strListLe_total as bs
    · rcases lt_trichotomy a b with h | h | h
      · left
        simp [strListLe, hab, h]
      · exact absurd h hab
      · right
        simp [strListLe, Ne.symm hab, h]

/-- `strListLe` is transitive. -/
theorem strListLe_trans : ∀ x y z : List String,
    strListLe x y = true → strListLe y z = true → strListLe x z = true
  | [], _, _, _, _ => rfl
  | _ :: _, [], _, h1, _ => by simp [strListLe] at h1
  | _ :: _, _ :: _, [], _, h2 => by simp [strListLe] at h2
  | a :: as, b :: bs, c :: cs, h1, h2 => by
    by_cases hab : a = b <;> by_cases hbc : b = c
    · subst hab
      subst hbc
      simp only [strListLe, if_pos rfl] at h1 h2 ⊢
      exact strListLe_trans as bs cs h1 h2
    · subst hab
      simp only [strListLe, if_pos rfl] at h1
      simp only [strListLe, if_neg hbc, decide_eq_true_eq] at h2
      simp [strListLe, hbc, h2]
    · subst hbc
      simp only [strListLe, if_neg hab, decide_eq_true_eq] at h1
      simp [strListLe, hab, h1]
    · simp only [strListLe, if_neg hab, decide_eq_true_eq] at h1
      simp only [strListLe, if_neg hbc, decide_eq_true_eq] at h2
      have hac : a < c := lt_trans h1 h2
      simp [strListLe, ne_of_lt hac, hac]

/-- Unfolding of the sort-key comparison into the lexicographic
proposition the claim describes. -/
theorem keyLe_iff (p q : Int × Inst) :
    keyLe p q = true ↔
      p.1 < q.1 ∨ (p.1 = q.1 ∧ (p.2.duration < q.2.duration ∨
        (p.2.duration = q.2.duration ∧
          strListLe (sortedNames p.2) (sortedNames q.2) = true))) := by
  unfold keyLe
  simp [Bool.or_eq_true, Bool.and_eq_true, decide_eq_true_eq]

instance : IsTotal (Int × Inst) instRel := by
  constructor
  intro p q
  unfold instRel
  rw [keyLe_iff, keyLe_iff]
  rcases lt_trichotomy p.1 q.1 with h | h | h
  · exact Or.inl (Or.inl h)
  · rcases lt_trichotomy p.2.duration q.2.duration with hd | hd | hd
    · exact Or.inl (Or.inr ⟨h, Or.inl hd⟩)
    · rcases strListLe_total (sortedNames p.2) (sortedNames q.2) with hs | hs
      · exact Or.inl (Or.inr ⟨h, Or.inr ⟨hd, hs⟩⟩)
      · exact Or.inr (Or.inr ⟨h.symm, Or.inr ⟨hd.symm, hs⟩⟩)
    · exact Or.inr (Or.inr ⟨h.symm, Or.inl hd⟩)
  · exact Or.inr (Or.inl h)

instance : IsTrans (Int × Inst) instRel := by
  constructor
  intro p q r hpq hqr
  unfold instRel at *
  rw [keyLe_iff] at hpq hqr ⊢
  rcases hpq with h1 | ⟨h1, hd1⟩
  · rcases hqr with h2 | ⟨h2, _⟩
    · exact Or.inl (lt_trans h1 h2)
    · exact Or.inl (h2 ▸ h1)
  · rcases hqr with h2 | ⟨h2, hd2⟩
    · exact Or.inl (h1 ▸ h2)
    · refine Or.inr ⟨h1.trans h2, ?_⟩
      rcases hd1 with hd1 | ⟨hd1, hs1⟩
      · rcases hd2 with hd2 | ⟨hd2, _⟩
        · exact Or.inl (lt_trans hd1 hd2)
        · exact Or.inl (hd2 ▸ hd1)
      · rcases hd2 with hd2 | ⟨hd2, hs2⟩
        · exact Or.inl (hd1 ▸ hd2)
        · exact Or.inr ⟨hd1.trans hd2, strListLe_trans _ _ _ hs1 hs2⟩

/-- C9: the flattened instruction sequence of every schedule is sorted by
the key (absolute start time, instruction duration, lexicographically
sorted channel names): of any two entries in order, either the first starts
earlier, or they tie on time and the first has smaller duration, or they
also tie on duration and the first's sorted channel-name list is
lexicographically no greater. -/
theorem instructions_sorted_by_key (s : Schedule) :
    s.instructions.Pairwise fun p q =>
      p.1 < q.1 ∨ (p.1 = q.1 ∧ (p.2.duration < q.2.duration ∨
        (p.2.duration = q.2.duration ∧
          strListLe (sortedNames p.2) (sortedNames q.2) = true))) := by
  have h := List.sorted_insertionSort instRel (instRecs 0 s)
  exact h.imp fun hab => (keyLe_iff _ _).mp hab

mutual
/-- Flattening from an accumulated offset equals flattening from 0 shifted
by that offset (schedules). -/
theorem instRecs_shift (a time : Int) (s : Schedule) :
    instRecs (a + time) s = (instRecs time s).map fun p => (a + p.1, p.2) := by
  cases s with
  | mk d ts cs => simpa [instRecs] using instRecsCL_shift a time cs
/-- Flattening from an accumulated offset equals flattening from 0 shifted
by that offset (child lists). -/
theorem instRecsCL_shift (a time : Int) (cs : ChildList) :
    instRecsCL (a + time) cs = (instRecsCL time cs).map fun p => (a + p.1, p.2) := by
  cases cs with
  | nil => simp [instRecsCL]
  | cons t c rest =>
    simp [instRecsCL, instRecsC_shift a (time + t) c, instRecsCL_shift a time rest,
      Int.add_assoc]
/-- Flattening from an accumulated offset equals flattening from 0 shifted
by that offset (components). -/
theorem instRecsC_shift (a time : Int) (c : Component) :
    instRecsC (a + time) c = (instRecsC time c).map fun p => (a + p.1, p.2) := by
  cases c with
  | inst i => simp [instRecsC]
  | sched s => exact instRecs_shift a time s
end

/-- Rebuilding a schedule from its own projections is the identity. -/
theorem Schedule.eta (s : Schedule) :
    Schedule.mk s.duration s.timeslots s.childList = s := by
  cases s
  rfl

/-- Shifting every child offset shifts the flattened sequence. -/
theorem instRecsCL_mapOffset (d time : Int) : ∀ cs : ChildList,
    instRecsCL time (cs.mapOffset d) = (instRecsCL time cs).map fun p => (d + p.1, p.2)
  | .nil => by simp [instRecsCL, ChildList.mapOffset]
  | .cons t c rest => by
    have hc : instRecsC (time + (t + d)) c
        = (instRecsC (time + t) c).map fun p => (d + p.1, p.2) := by
      have h0 := instRecsC_shift d (time + t) c
      rw [show time + (t + d) = d + (time + t) by ring]
      exact h0
    simp [instRecsCL, ChildList.mapOffset, instRecsCL_mapOffset d time rest, hc]

/-- Shifting by 0 is the identity on interval lists. -/
theorem map_shiftIv_zero (l : List Ival) : l.map (shiftIv 0) = l := by
  induction l with
  | nil => rfl
  | cons iv rest ih => simp [shiftIv, ih]

/-- Dictionary assignment of a fresh key appends the new entry. -/
theorem upsert_of_lookup_none (ch : Chan) (l : List Ival)
    (ts : List (Chan × List Ival)) (h : lookupCh ch ts = none) :
    upsert ch l ts = ts ++ [(ch, l)] := by
  induction ts with
  | nil => rfl
  | cons p rest ih =>
    obtain ⟨c, v⟩ := p
    by_cases hc : c = ch
    · simp [lookupCh, hc] at h
    · simp only [lookupCh, if_neg hc] at h
      simp [upsert, hc, ih h]

/-- Lookup distributes over appending a fresh tail entry with a different
key. -/
theorem lookupCh_append_single (ch c : Chan) (l : List Ival)
    (ts : List (Chan × List Ival)) (h : lookupCh ch ts = none) (hne : c ≠ ch) :
    lookupCh ch (ts ++ [(c, l)]) = none := by
  induction ts with
  | nil => simp [lookupCh, hne]
  | cons p rest ih =>
    obtain ⟨c0, v0⟩ := p
    by_cases hc : c0 = ch
    · simp [lookupCh, hc] at h
    · simp only [lookupCh, if_neg hc] at h
      simp only [List.cons_append, lookupCh, if_neg hc]
      exact ih h

/-- The channel loop of `_add_timeslots`, when every processed channel is
new to the target, appends each (possibly shifted) list as a fresh dict
entry and succeeds. -/
theorem goChans_all_new (t : Int) (other : List (Chan × List Ival)) :
    ∀ (pend : List (Chan × List Ival)) (s : Schedule),
    (∀ p ∈ pend, lookupCh p.1 s.timeslots = none ∧ lookupCh p.1 other = some p.2) →
    (pend.map Prod.fst).Nodup →
    goChans t other (pend.map Prod.fst) s =
      .ok (setTs s (s.timeslots ++
        pend.map fun p => (p.1, if t = 0 then p.2 else p.2.map (shiftIv t))))
  | [], s, _, _ => by simp [goChans, setTs, Schedule.eta]
  | p :: rest, s, h, hnd => by
    obtain ⟨ch, l⟩ := p
    have h0 := h (ch, l) (by simp)
    have hrest : ∀ q ∈ rest,
        lookupCh q.1 (setTs s (upsert ch (if t = 0 then l else l.map (shiftIv t)) s.timeslots)).timeslots = none ∧
          lookupCh q.1 other = some q.2 := by
      intro q hq
      have hq0 := h q (by simp [hq])
      have hne : ch ≠ q.1 := by
        simp only [List.map_cons, List.nodup_cons] at hnd
        intro he
        exact hnd.1 (he ▸ (List.mem_map_of_mem Prod.fst hq))
      refine ⟨?_, hq0.2⟩
      rw [setTs, Schedule.timeslots,
        upsert_of_lookup_none ch _ s.timeslots h0.1]
      exact lookupCh_append_single q.1 ch _ s.timeslots hq0.1 hne
    have hnd' : (rest.map Prod.fst).Nodup := by
      simp only [List.map_cons, List.nodup_cons] at hnd
      exact hnd.2
    have := goChans_all_new t other rest
      (setTs s (upsert ch (if t = 0 then l else l.map (shiftIv t)) s.timeslots)) hrest hnd'
    simp only [List.map_cons, goChans, h0.1, h0.2, Option.getD_some] at this ⊢
    rw [this]
    rw [setTs, setTs, setTs, Schedule.timeslots, Schedule.duration, Schedule.childList,
      upsert_of_lookup_none ch _ s.timeslots h0.1]
    simp [List.append_assoc]

/-- With distinct keys, looking up the key of any entry returns that
entry's list. -/
theorem lookupCh_self (ts : List (Chan × List Ival))
    (hnd : (ts.map Prod.fst).Nodup) :
    ∀ p ∈ ts, lookupCh p.1 ts = some p.2 := by
  induction ts with
  | nil => simp
  | cons q rest ih =>
    intro p hp
    obtain ⟨c0, v0⟩ := q
    simp only [List.map_cons, List.nodup_cons] at hnd
    rcases List.mem_cons.mp hp with hp | hp
    · subst hp
      simp [lookupCh]
    · have hne : c0 ≠ p.1 := by
        intro he
        exact hnd.1 (he ▸ (List.mem_map_of_mem Prod.fst hp))
      simp only [lookupCh, if_neg hne]
      exact ih hnd.2 p hp

/-- The shifted timeslot map passes the non-negativity check as soon as
every interval start stays non-negative after the shift. -/
theorem checkNonneg_shifted (d : Int) (ts : List (Chan × List Ival))
    (h : ∀ p ∈ ts, ∀ iv ∈ p.2, 0 ≤ iv.1 + d) :
    _check_nonnegative_timeslot (ts.map fun p => (p.1, p.2.map (shiftIv d))) = true := by
  rw [_check_nonnegative_timeslot, List.all_eq_true]
  intro q hq
  rw [List.mem_map] at hq
  obtain ⟨p, hp, rfl⟩ := hq
  cases hl : p.2 with
  | nil => simp [hl]
  | cons iv rest =>
    have h0 := h p hp iv (by rw [hl]; exact List.mem_cons_self iv rest)
    simp [hl, shiftIv, h0]

/-- Inserting a schedule with distinct channel keys into a fresh empty
schedule deposits its (shifted) timeslot map verbatim, records the single
child, and sets the duration to `max 0 (t + duration)` — provided the
shifted map passes the non-negativity check. -/
theorem mutable_insert_empty (t : Int) (s : Schedule)
    (hnd : (s.timeslots.map Prod.fst).Nodup)
    (hnn : _check_nonnegative_timeslot
      (s.timeslots.map fun p => (p.1, p.2.map (shiftIv t))) = true) :
    _mutable_insert t (.sched s) emptySchedule =
      .ok (.mk (max 0 (t + s.duration))
        (s.timeslots.map fun p => (p.1, p.2.map (shiftIv t)))
        (.cons t (.sched s) .nil)) := by
  cases s with
  | mk d ts cl =>
    simp only [Schedule.timeslots] at hnd hnn
    have hmap : (ts.map fun p => (p.1, if t = 0 then p.2 else p.2.map (shiftIv t)))
        = ts.map fun p => (p.1, p.2.map (shiftIv t)) := by
      by_cases ht : t = 0
      · subst ht
        simp [map_shiftIv_zero]
      · simp [ht]
    have hgo := goChans_all_new t (_get_timeslots (.sched (.mk d ts cl))) ts
      (setDur emptySchedule (max emptySchedule.duration (t + compDuration (.sched (.mk d ts cl)))))
      (fun p hp => ⟨rfl, lookupCh_self ts hnd p hp⟩) hnd
    simp only [_mutable_insert, _add_timeslots]
    rw [show compChannels (.sched (.mk d ts cl)) = ts.map Prod.fst from rfl, hgo]
    simp only [setTs, setDur, Schedule.duration, Schedule.timeslots, Schedule.childList,
      emptySchedule, List.nil_append, hmap, hnn, if_true]
    rfl

/-- Unfold `instRecs` to the child-list traversal for an arbitrary
schedule variable. -/
theorem instRecs_eq_CL (time : Int) (s : Schedule) :
    instRecs time s = instRecsCL time s.childList := by
  cases s
  rfl

/-- Both `shift` variants succeed when every interval start stays
non-negative after the shift, and both produce a schedule whose timeslot
map is the shifted map and whose flattened sequence is the original one
shifted — the copy-on-write variant wraps `self` as a child while the
in-place variant shifts fields directly, but the observable timing data
agree. -/
theorem shift_ok_spec (ip : Bool) (d : Int) (s : Schedule)
    (hnd : (s.timeslots.map Prod.fst).Nodup)
    (hnn : ∀ p ∈ s.timeslots, ∀ iv ∈ p.2, 0 ≤ iv.1 + d) :
    ∃ s2, Schedule.shift d ip s = .ok s2 ∧
      s2.timeslots = s.timeslots.map (fun p => (p.1, p.2.map (shiftIv d))) ∧
      instRecs 0 s2 = (instRecs 0 s).map (fun p => (d + p.1, p.2)) := by
  have hchk := checkNonneg_shifted d s.timeslots hnn
  cases ip with
  | false =>
    refine ⟨.mk (max 0 (d + s.duration))
        (s.timeslots.map fun p => (p.1, p.2.map (shiftIv d)))
        (.cons d (.sched s) .nil), ?_, ?_, ?_⟩
    · show _immutable_shift d s = _
      unfold _immutable_shift
      rw [mutable_insert_empty d s hnd hchk]
    · rfl
    · rw [instRecs_eq_CL]
      show instRecsCL 0 (.cons d (.sched s) .nil) = _
      simp only [instRecsCL, instRecsC, List.append_nil]
      rw [show (0 : Int) + d = d + 0 by ring]
      exact instRecs_shift d 0 s
  | true =>
    refine ⟨.mk (s.duration + d)
        (s.timeslots.map fun p => (p.1, p.2.map (shiftIv d)))
        (s.childList.mapOffset d), ?_, ?_, ?_⟩
    · show _mutable_shift d s = _
      unfold _mutable_shift
      simp [hchk]
    · rfl
    · rw [instRecs_eq_CL, instRecs_eq_CL]
      show instRecsCL 0 (s.childList.mapOffset d) = _
      rw [instRecsCL_mapOffset]

/-- Zipping a list with itself satisfies the pointwise equality check. -/
theorem zip_self_all (l : List (Int × Inst)) :
    (l.zip l).all (fun pq => decide (pq.1 = pq.2)) = true := by
  induction l with
  | nil => rfl
  | cons x rest ih => simp [List.zip_cons_cons, ih]

/-- Channel-set equality is reflexive. -/
theorem chanSetEq_refl (a : List Chan) : chanSetEq a a = true := by
  simp [chanSetEq, List.all_eq_true]

/-- Two schedules with identical channel lists and identical sorted
instruction sequences are equal under `Schedule.__eq__`. -/
theorem schedEq_of_eq (x y : Schedule) (hc : x.channels = y.channels)
    (hi : x.instructions = y.instructions) : schedEq x y = true := by
  unfold schedEq
  rw [hc, hi]
  simp [chanSetEq_refl, zip_self_all]

/-- C7 (shift composition): for every schedule with distinct channel keys
and all integers d1, d2 such that every interval start stays non-negative
after shifting by d1 and by d1 + d2, shifting by d1 and then by d2 — with
any mix of the in-place and copy-on-write variants — succeeds and yields a
schedule equal, under the structural equality of `Schedule.__eq__`, to the
schedule obtained by a single shift by d1 + d2. -/
theorem shift_then_shift_eq_shift_sum (s : Schedule) (d1 d2 : Int) (ip1 ip2 ip3 : Bool)
    (hnd : (s.timeslots.map Prod.fst).Nodup)
    (h1 : ∀ p ∈ s.timeslots, ∀ iv ∈ p.2, 0 ≤ iv.1 + d1)
    (h12 : ∀ p ∈ s.timeslots, ∀ iv ∈ p.2, 0 ≤ iv.1 + (d1 + d2)) :
    ∃ s1 s2 s3,
      Schedule.shift d1 ip1 s = .ok s1 ∧
      Schedule.shift d2 ip2 s1 = .ok s2 ∧
      Schedule.shift (d1 + d2) ip3 s = .ok s3 ∧
      schedEq s2 s3 = true := by
  obtain ⟨s1, hs1, hts1, hir1⟩ := shift_ok_spec ip1 d1 s hnd h1
  have hnd1 : (s1.timeslots.map Prod.fst).Nodup := by
    rw [hts1, List.map_map]
    simpa [Function.comp] using hnd
  have h2 : ∀ p ∈ s1.timeslots, ∀ iv ∈ p.2, 0 ≤ iv.1 + d2 := by
    rw [hts1]
    intro p hp iv hiv
    rw [List.mem_map] at hp
    obtain ⟨q, hq, rfl⟩ := hp
    rw [List.mem_map] at hiv
    obtain ⟨iv0, hiv0, rfl⟩ := hiv
    have h0 := h12 q hq iv0 hiv0
    simp only [shiftIv]
    omega
  obtain ⟨s2, hs2, hts2, hir2⟩ := shift_ok_spec ip2 d2 s1 hnd1 h2
  obtain ⟨s3, hs3, hts3, hir3⟩ := shift_ok_spec ip3 (d1 + d2) s hnd h12
  refine ⟨s1, s2, s3, hs1, hs2, hs3, schedEq_of_eq s2 s3 ?_ ?_⟩
  · rw [Schedule.channels, Schedule.channels, hts2, hts1, hts3]
    simp [List.map_map, Function.comp]
  · rw [Schedule.instructions, Schedule.instructions, hir2, hir1, hir3]
    congr 1
    rw [List.map_map]
    apply List.map_congr_left
    intro p _
    simp only [Function.comp]
    refine Prod.ext ?_ rfl
    show d2 + (d1 + p.1) = d1 + d2 + p.1
    ring

/-- Witness for C7 at a concrete input: the duration-10 leaf at time 3 on
channel `d0`, shifted by -2 and then by 4, equals the single shift by 2,
for every variant combination. -/
theorem shift_then_shift_eq_shift_sum_witness :
    ∃ s1 s2 s3,
      Schedule.shift (-2) true
          (.mk 13 [("d0", [(3, 13)])] (.cons 3 (.inst ⟨["d0"], 10, 0⟩) .nil)) = .ok s1 ∧
      Schedule.shift 4 false s1 = .ok s2 ∧
      Schedule.shift (-2 + 4) true
          (.mk 13 [("d0", [(3, 13)])] (.cons 3 (.inst ⟨["d0"], 10, 0⟩) .nil)) = .ok s3 ∧
      schedEq s2 s3 = true :=
  shift_then_shift_eq_shift_sum
    (.mk 13 [("d0", [(3, 13)])] (.cons 3 (.inst ⟨["d0"], 10, 0⟩) .nil))
    (-2) 4 true false true (by decide)
    (by intro p hp iv hiv; fin_cases hp <;> fin_cases hiv <;> decide)
    (by intro p hp iv hiv; fin_cases hp <;> fin_cases hiv <;> decide)

/-- `locGo` over the empty list returns the running index. -/
theorem locGo_nil (fuel : Nat) (n : Ival) (i : Nat) : locGo fuel [] n i = i := by
  cases fuel <;> simp [locGo]

/-- Running `locGo` from index `i` shifts the zero-index result by `i`. -/
theorem locGo_index_shift : ∀ (fuel : Nat) (l : List Ival) (n : Ival) (i : Nat),
    locGo fuel l n i = i + locGo fuel l n 0
  | 0, _, _, i => by simp [locGo]
  | fuel + 1, l, n, i => by
    simp only [locGo]
    split_ifs with h1 h2
    · simp
    · exact locGo_index_shift fuel _ n i
    · rw [locGo_index_shift fuel _ n (i + l.length / 2),
        locGo_index_shift fuel _ n (0 + l.length / 2)]
      omega

/-- `locGo` does not depend on the fuel once it covers the list length. -/
theorem locGo_fuel : ∀ (fuel fuel' : Nat) (l : List Ival) (n : Ival) (i : Nat),
    l.length ≤ fuel → l.length ≤ fuel' → locGo fuel l n i = locGo fuel' l n i
  | 0, fuel', l, n, i, h, _ => by
    have : l = [] := List.length_eq_zero.mp (by omega)
    subst this
    rw [locGo_nil, locGo_nil]
  | _ + 1, 0, l, n, i, _, h' => by
    have : l = [] := List.length_eq_zero.mp (by omega)
    subst this
    rw [locGo_nil, locGo_nil]
  | fuel + 1, fuel' + 1, l, n, i, h, h' => by
    simp only [locGo]
    split_ifs with h1 h2
    · rfl
    · exact locGo_fuel fuel fuel' _ n i
        (by simp [List.length_take]; omega) (by simp [List.length_take]; omega)
    · exact locGo_fuel fuel fuel' _ n (i + l.length / 2)
        (by simp [List.length_drop]; omega) (by simp [List.length_drop]; omega)

/-- Locating in a list of length at most one returns index 0. -/
theorem loc_base (l : List Ival) (n : Ival) (h : l.length ≤ 1) :
    _locate_interval_index l n = 0 := by
  cases l with
  | nil => rfl
  | cons a as =>
    cases as with
    | nil => rfl
    | cons b bs => simp at h

/-- The recursion equation of `_locate_interval_index` for lists of length
at least two, phrased in terms of the function itself on the two slices. -/
theorem loc_step (l : List Ival) (n : Ival) (h : 2 ≤ l.length) :
    _locate_interval_index l n =
      if n.2 ≤ (l.getD (l.length / 2) (0, 0)).1 ∧ n ≠ l.getD (l.length / 2) (0, 0) then
        _locate_interval_index (l.take (l.length / 2)) n
      else l.length / 2 + _locate_interval_index (l.drop (l.length / 2)) n := by
  unfold _locate_interval_index
  obtain ⟨k, hk⟩ : ∃ k, l.length = k + 2 := ⟨l.length - 2, by omega⟩
  rw [hk]
  conv_lhs => rw [locGo]
  rw [if_neg (by omega : ¬l.length ≤ 1)]
  simp only [hk]
  split_ifs with hc
  · exact locGo_fuel (k + 1) (l.take ((k + 2) / 2)).length _ n 0
      (by simp [List.length_take]; omega) le_rfl
  · rw [locGo_index_shift (k + 1) _ n (0 + (k + 2) / 2)]
    rw [locGo_fuel (k + 1) (l.drop ((k + 2) / 2)).length _ n 0
      (by simp [List.length_drop]; omega) le_rfl]
    omega

/-- `getD` of a `take` prefix below the cut agrees with the original. -/
theorem getD_take_of_lt (l : List Ival) (m j : Nat) (d : Ival) (h : j < m) :
    (l.take m).getD j d = l.getD j d := by
  rw [List.getD_eq_getElem?_getD, List.getD_eq_getElem?_getD, List.getElem?_take, if_pos h]

/-- `getD` of a `drop` suffix shifts the index. -/
theorem getD_drop (l : List Ival) (m j : Nat) (d : Ival) :
    (l.drop m).getD j d = l.getD (m + j) d := by
  rw [List.getD_eq_getElem?_getD, List.getD_eq_getElem?_getD, List.getElem?_drop]

/-- `getD` with an in-range index is `getElem`. -/
theorem getD_eq_getElem (l : List Ival) (j : Nat) (d : Ival) (h : j < l.length) :
    l.getD j d = l[j] := by
  rw [List.getD_eq_getElem?_getD, List.getElem?_eq_getElem h]
  rfl

/-- The located index lies strictly inside a non-empty list. -/
theorem loc_lt (l : List Ival) (n : Ival) (hne : l ≠ []) :
    _locate_interval_index l n < l.length := by
  by_cases h2 : 2 ≤ l.length
  · rw [loc_step l n h2]
    split_ifs with hc
    · have hlen : (l.take (l.length / 2)).length = l.length / 2 := by
        simp [List.length_take]
        omega
      have hrec := loc_lt (l.take (l.length / 2)) n
        (by rw [← List.length_pos, hlen]; omega)
      omega
    · have hlen : (l.drop (l.length / 2)).length = l.length - l.length / 2 := by
        simp [List.length_drop]
      have hrec := loc_lt (l.drop (l.length / 2)) n
        (by rw [← List.length_pos, hlen]; omega)
      omega
  · have h0 : 0 < l.length := List.length_pos.mpr hne
    rw [loc_base l n (by omega)]
    omega
termination_by l.length
decreasing_by
  · simp [List.length_take]
    omega
  · simp [List.length_drop]
    omega

/-- Every element strictly right of the located index starts at or after
the probe's stop, provided the list is sorted by start. -/
theorem loc_succ (l : List Ival) (n : Ival)
    (hs : l.Pairwise fun a b => a.1 ≤ b.1) :
    ∀ j, j < l.length → _locate_interval_index l n < j →
      n.2 ≤ (l.getD j (0, 0)).1 := by
  intro j hj hlt
  by_cases h2 : 2 ≤ l.length
  · rw [loc_step l n h2] at hlt
    split_ifs at hlt with hc
    · by_cases hjm : j < l.length / 2
      · have hrec := loc_succ (l.take (l.length / 2)) n
          (hs.sublist (List.take_sublist _ l)) j
          (by simp [List.length_take]; omega) hlt
        rwa [getD_take_of_lt l _ j _ hjm] at hrec
      · have hm_lt : l.length / 2 < l.length := by omega
        have hc1 : n.2 ≤ (l.getD (l.length / 2) (0, 0)).1 := hc.1
        rcases Nat.eq_or_lt_of_le (Nat.le_of_not_lt hjm) with he | hlt2
        · rw [← he]
          exact hc1
        · have hp := (List.pairwise_iff_getElem.mp hs) (l.length / 2) j hm_lt hj hlt2
          rw [getD_eq_getElem l _ _ hm_lt] at hc1
          rw [getD_eq_getElem l j _ hj]
          omega
    · have hj' : j - l.length / 2 < (l.drop (l.length / 2)).length := by
        simp [List.length_drop]
        omega
      have hrec := loc_succ (l.drop (l.length / 2)) n
        (hs.sublist (List.drop_sublist _ l)) (j - l.length / 2) hj' (by omega)
      rw [getD_drop] at hrec
      rwa [show l.length / 2 + (j - l.length / 2) = j from by omega] at hrec
  · rw [loc_base l n (by omega)] at hlt
    omega
termination_by l.length
decreasing_by
  · simp [List.length_take]
    omega
  · simp [List.length_drop]
    omega

/-- If the located index is positive, the binary search descended right at
it: the probe either stops after that interval's start or equals it. -/
theorem loc_at (l : List Ival) (n : Ival)
    (hr : 0 < _locate_interval_index l n) :
    ¬(n.2 ≤ (l.getD (_locate_interval_index l n) (0, 0)).1 ∧
        n ≠ l.getD (_locate_interval_index l n) (0, 0)) := by
  by_cases h2 : 2 ≤ l.length
  · rw [loc_step l n h2] at hr ⊢
    split_ifs at hr ⊢ with hc
    · have hlt : _locate_interval_index (l.take (l.length / 2)) n < l.length / 2 := by
        have hlen : (l.take (l.length / 2)).length = l.length / 2 := by
          simp [List.length_take]
          omega
        have := loc_lt (l.take (l.length / 2)) n
          (by rw [← List.length_pos, hlen]; omega)
        omega
      have hrec := loc_at (l.take (l.length / 2)) n hr
      rwa [getD_take_of_lt l _ _ _ hlt] at hrec
    · rcases Nat.eq_zero_or_pos (_locate_interval_index (l.drop (l.length / 2)) n) with h0 | hpos
      · rw [h0, Nat.add_zero]
        exact hc
      · have hrec := loc_at (l.drop (l.length / 2)) n hpos
        rwa [getD_drop] at hrec
  · rw [loc_base l n (by omega)] at hr
    omega
termination_by l.length
decreasing_by
  · simp [List.length_take]
    omega
  · simp [List.length_drop]
    omega

/-- Pointwise bounds around the insertion position extend a pairwise
relation through `insertIdx`. -/
theorem pairwise_insertIdx {R : Ival → Ival → Prop} :
    ∀ (l : List Ival) (i : Nat) (n : Ival), i ≤ l.length → l.Pairwise R →
      (∀ j, j < l.length → j < i → R (l.getD j (0, 0)) n) →
      (∀ j, j < l.length → i ≤ j → R n (l.getD j (0, 0))) →
      (l.insertIdx i n).Pairwise R
  | l, 0, n, _, hl, _, hpost => by
    rw [List.insertIdx_zero]
    refine List.pairwise_cons.mpr ⟨?_, hl⟩
    intro b hb
    obtain ⟨j, hj, rfl⟩ := List.mem_iff_getElem.mp hb
    have h0 := hpost j hj (Nat.zero_le j)
    rwa [getD_eq_getElem _ _ _ hj] at h0
  | [], i + 1, n, hi, _, _, _ => by simp at hi
  | x :: xs, i + 1, n, hi, hl, hpre, hpost => by
    rw [List.insertIdx_succ_cons]
    rw [List.pairwise_cons] at hl
    refine List.pairwise_cons.mpr ⟨?_, ?_⟩
    · intro b hb
      rw [List.mem_insertIdx (by simpa using hi)] at hb
      rcases hb with rfl | hb
      · have h0 := hpre 0 (by simp) (Nat.succ_pos i)
        simpa [List.getD_cons_zero] using h0
      · exact hl.1 b hb
    · refine pairwise_insertIdx xs i n (by simpa using hi) hl.2 ?_ ?_
      · intro j hj hji
        have h0 := hpre (j + 1) (by simpa using hj) (by omega)
        rwa [List.getD_cons_succ] at h0
      · intro j hj hij
        have h0 := hpost (j + 1) (by simpa using hj) (by omega)
        rwa [List.getD_cons_succ] at h0

/-- An interval whose start lies before the probe's stop and that does not
overlap the probe must start no later than the probe. -/
theorem start_le_of_not_overlaps (e n : Ival) (hov : _overlaps e n = false)
    (h : e.1 < n.2) : e.1 ≤ n.1 := by
  unfold _overlaps at hov
  split_ifs at hov with h1 h2
  · omega
  · simp only [decide_eq_false_iff_not] at hov
    omega
  · omega

/-- Start ordering between two positions of a start-sorted list, through
`getD`. -/
theorem sorted_getD_le (l : List Ival) (hs : l.Pairwise fun a b => a.1 ≤ b.1)
    (j k : Nat) (hj : j < k) (hk : k < l.length) :
    (l.getD j (0, 0)).1 ≤ (l.getD k (0, 0)).1 := by
  have hjl : j < l.length := lt_trans hj hk
  rw [getD_eq_getElem _ _ _ hjl, getD_eq_getElem _ _ _ hk]
  exact (List.pairwise_iff_getElem.mp hs) j k hjl hk hj

/-- C5 (amended): for every start-sorted, pairwise non-overlapping list of
proper intervals and every proper new interval, `_find_insertion_index`
raises exactly when the interval at the binary-search-located candidate
index overlaps the new interval; otherwise it returns the candidate index
(unchanged if the new interval's stop is at most the candidate's start,
else candidate + 1), and inserting the new interval there keeps the list
sorted by start time. -/
theorem find_insertion_index_spec (l : List Ival) (n : Ival)
    (hs : l.Pairwise fun a b => a.1 ≤ b.1)
    (hnov : l.Pairwise fun a b => _overlaps a b = false)
    (hn : n.1 ≤ n.2) :
    ((∃ e, _find_insertion_index l n = .error e) ↔
      (_locate_interval_index l n < l.length ∧
        _overlaps (l.getD (_locate_interval_index l n) (0, 0)) n = true)) ∧
    (∀ i, _find_insertion_index l n = .ok i →
      (i = if _locate_interval_index l n < l.length then
            (if n.2 ≤ (l.getD (_locate_interval_index l n) (0, 0)).1 then
              _locate_interval_index l n
            else _locate_interval_index l n + 1)
          else _locate_interval_index l n) ∧
      (l.insertIdx i n).Pairwise fun a b => a.1 ≤ b.1) := by
  unfold _find_insertion_index
  by_cases hlt : _locate_interval_index l n < l.length
  · rw [if_pos hlt]
    by_cases hov : _overlaps (l.getD (_locate_interval_index l n) (0, 0)) n = true
    · rw [if_pos hov]
      exact ⟨⟨fun _ => ⟨hlt, hov⟩, fun _ => ⟨.overlap, rfl⟩⟩, by intro i hi; cases hi⟩
    · rw [if_neg hov]
      rw [Bool.not_eq_true] at hov
      refine ⟨⟨fun h => by (obtain ⟨e, he⟩ := h; cases he), fun h => by (rw [hov] at h; cases h.2)⟩, ?_⟩
      intro i hi
      injection hi with hi
      subst hi
      rw [if_pos hlt]
      refine ⟨rfl, ?_⟩
      by_cases hstop : n.2 ≤ (l.getD (_locate_interval_index l n) (0, 0)).1
      · rw [if_pos hstop]
        refine pairwise_insertIdx l _ n (Nat.le_of_lt hlt) hs ?_ ?_
        · intro j hj hji
          have hpos : 0 < _locate_interval_index l n := Nat.lt_of_le_of_lt (Nat.zero_le j) hji
          have heq : n = l.getD (_locate_interval_index l n) (0, 0) := by
            by_contra hne
            exact loc_at l n hpos ⟨hstop, hne⟩
          have h1 : n.1 = (l.getD (_locate_interval_index l n) (0, 0)).1 :=
            congrArg Prod.fst heq
          have hle := sorted_getD_le l hs j _ hji hlt
          omega
        · intro j hj hij
          rcases Nat.eq_or_lt_of_le hij with he | hlt2
          · rw [← he]
            omega
          · have := loc_succ l n hs j hj hlt2
            omega
      · rw [if_neg hstop]
        have hcand : (l.getD (_locate_interval_index l n) (0, 0)).1 ≤ n.1 :=
          start_le_of_not_overlaps _ n hov (by omega)
        refine pairwise_insertIdx l _ n (by omega) hs ?_ ?_
        · intro j hj hji
          rcases Nat.eq_or_lt_of_le (Nat.le_of_lt_succ hji) with he | hlt2
          · rw [he]
            exact hcand
          · have := sorted_getD_le l hs j _ hlt2 hlt
            omega
        · intro j hj hij
          have := loc_succ l n hs j hj (by omega)
          omega
  · rw [if_neg hlt]
    have hnil : l = [] := by
      by_contra hne
      exact hlt (loc_lt l n hne)
    subst hnil
    refine ⟨⟨fun h => by (obtain ⟨e, he⟩ := h; cases he), fun h => absurd h.1 hlt⟩, ?_⟩
    intro i hi
    injection hi with hi
    subst hi
    rw [if_neg hlt]
    refine ⟨rfl, ?_⟩
    rw [loc_base [] n (by simp)]
    simp [List.insertIdx_zero]

/-- C5 counterexample: the list `[(0, 10), (0, 0)]` is sorted by start and
pairwise non-overlapping (the zero-length interval at 0 overlaps nothing
under `_overlaps`), the new interval `(3, 5)` overlaps the member
`(0, 10)`, yet `_find_insertion_index` does not raise: the binary search
lands on `(0, 0)`, the only interval it checks, and returns index 2. -/
theorem find_insertion_index_missed_overlap_cex :
    ([((0:Int), (10:Int)), (0, 0)].Pairwise fun a b => a.1 ≤ b.1) ∧
      ([((0:Int), (10:Int)), (0, 0)].Pairwise fun a b => _overlaps a b = false) ∧
      (∃ e ∈ [((0:Int), (10:Int)), (0, 0)], _overlaps e (3, 5) = true) ∧
      _find_insertion_index [((0:Int), (10:Int)), (0, 0)] (3, 5) = .ok 2 :=
  ⟨by decide, by decide, ⟨(0, 10), by decide, by decide⟩, rfl⟩

/-- Witness for C5's amended specification at a concrete input: inserting
`(2, 4)` into `[(0, 2), (4, 6)]` locates candidate 0, detects no overlap
there, returns candidate + 1 = 1, and the insertion keeps the list
sorted. -/
theorem find_insertion_index_spec_witness :
    _find_insertion_index [((0:Int), (2:Int)), (4, 6)] (2, 4) = .ok 1 ∧
      ([((0:Int), (2:Int)), (4, 6)].insertIdx 1 (2, 4)).Pairwise
        (fun a b => a.1 ≤ b.1) :=
  ⟨rfl,
    ((find_insertion_index_spec [((0:Int), (2:Int)), (4, 6)] (2, 4)
      (by decide) (by decide) (by decide)).2 1 rfl).2⟩

/-- In a chained list of proper intervals, every earlier interval stops no
later than any later interval starts. -/
theorem chained_getD (l : List Ival) (hc : ChainedIvs l) (hp : ProperIvs l) :
    ∀ j k, j < k → k < l.length → (l.getD j (0, 0)).2 ≤ (l.getD k (0, 0)).1 := by
  intro j k
  induction k with
  | zero => omega
  | succ k ih =>
    intro hjk hk
    have hadj : (l.getD k (0, 0)).2 ≤ (l.getD (k + 1) (0, 0)).1 := by
      have h0 := List.chain'_iff_get.mp hc k (by omega)
      rw [getD_eq_getElem _ _ _ (by omega), getD_eq_getElem _ _ _ hk]
      simpa [List.get_eq_getElem] using h0
    rcases Nat.eq_or_lt_of_le (Nat.le_of_lt_succ hjk) with he | hlt
    · rw [he]
      exact hadj
    · have h1 := ih hlt (by omega)
      have h2 : (l.getD k (0, 0)).1 ≤ (l.getD k (0, 0)).2 := by
        rw [getD_eq_getElem _ _ _ (by omega)]
        exact hp _ (List.getElem_mem (by omega))
      omega

/-- A chained list of proper intervals is sorted by start time. -/
theorem chained_sorted (l : List Ival) (hc : ChainedIvs l) (hp : ProperIvs l) :
    l.Pairwise fun a b => a.1 ≤ b.1 := by
  rw [List.pairwise_iff_getElem]
  intro i j hi hj hij
  have h0 := chained_getD l hc hp i j hij hj
  have h1 : l[i].1 ≤ l[i].2 := hp _ (List.getElem_mem hi)
  rw [getD_eq_getElem _ _ _ hi, getD_eq_getElem _ _ _ hj] at h0
  omega

/-- A proper interval stopping before another's start does not overlap
it. -/
theorem not_overlaps_of_stop_le (e m : Ival) (he : e.1 ≤ e.2) (h : e.2 ≤ m.1) :
    _overlaps e m = false := by
  unfold _overlaps
  split_ifs with h1 h2
  · rfl
  · simp only [decide_eq_false_iff_not]
    omega
  · simp only [decide_eq_false_iff_not]
    omega

/-- A proper interval starting at or after another's stop does not overlap
it. -/
theorem not_overlaps_of_le_start (e n : Ival) (hn : n.1 ≤ n.2) (h : n.2 ≤ e.1) :
    _overlaps e n = false := by
  unfold _overlaps
  split_ifs with h1 h2
  · rfl
  · simp only [decide_eq_false_iff_not]
    omega
  · simp only [decide_eq_false_iff_not]
    omega

/-- A non-degenerate interval overlaps itself. -/
theorem overlaps_self (n : Ival) (h : n.1 < n.2) : _overlaps n n = true := by
  unfold _overlaps
  rw [if_neg (by omega), if_neg (by omega)]
  simpa using h

/-- A non-overlapping proper interval stopping after the other's start
must stop by the time the probe starts. -/
theorem stop_le_of_not_overlaps (e n : Ival) (hov : _overlaps e n = false)
    (h : e.1 < n.2) : e.2 ≤ n.1 := by
  unfold _overlaps at hov
  split_ifs at hov with h1 h2
  · omega
  · simp only [decide_eq_false_iff_not] at hov
    omega
  · simp only [decide_eq_false_iff_not] at hov
    omega

/-- Pointwise bounds around the insertion position extend a chain through
`insertIdx`: the predecessor must relate to the new element and the new
element to the old occupant of the position. -/
theorem chain'_insertIdx {R : Ival → Ival → Prop} :
    ∀ (l : List Ival) (i : Nat) (n : Ival), i ≤ l.length → l.Chain' R →
      (0 < i → R (l.getD (i - 1) (0, 0)) n) →
      (i < l.length → R n (l.getD i (0, 0))) →
      (l.insertIdx i n).Chain' R
  | l, 0, n, _, hl, _, hpost => by
    rw [List.insertIdx_zero, List.chain'_cons']
    refine ⟨?_, hl⟩
    intro y hy
    cases l with
    | nil => simp at hy
    | cons a as =>
      simp only [List.head?] at hy
      injection hy with hy
      subst hy
      simpa [List.getD_cons_zero] using hpost (by simp)
  | [], i + 1, n, hi, _, _, _ => by simp at hi
  | x :: xs, i + 1, n, hi, hl, hpre, hpost => by
    rw [List.insertIdx_succ_cons, List.chain'_cons']
    rw [List.chain'_cons'] at hl
    constructor
    · intro y hy
      cases hx : xs with
      | nil =>
        have hi0 : i = 0 := by simpa [hx] using hi
        subst hi0
        rw [hx] at hy
        simp only [List.insertIdx_zero, List.head?] at hy
        injection hy with hy
        subst hy
        simpa [List.getD_cons_zero] using hpre (by omega)
      | cons b bs =>
        subst hx
        cases i with
        | zero =>
          simp only [List.insertIdx_zero, List.head?] at hy
          injection hy with hy
          subst hy
          simpa [List.getD_cons_zero] using hpre (by omega)
        | succ i' =>
          rw [List.insertIdx_succ_cons] at hy
          simp only [List.head?] at hy
          injection hy with hy
          subst hy
          exact hl.1 _ rfl
    · refine chain'_insertIdx xs i n (by simpa using hi) hl.2 ?_ ?_
      · intro hpos
        have h0 := hpre (by omega)
        rwa [show i + 1 - 1 = (i - 1) + 1 from by omega, List.getD_cons_succ] at h0
      · intro hlt
        have h0 := hpost (by simpa using Nat.succ_lt_succ hlt)
        rwa [List.getD_cons_succ] at h0

/-- Over a chained list of proper intervals, a successful
`_find_insertion_index` certifies that the probe overlaps no member: the
single overlap test at the located candidate, together with the binary
search invariants, covers the whole list. -/
theorem fi_ok_no_overlap (l : List Ival) (n : Ival)
    (hc : ChainedIvs l) (hp : ProperIvs l) (hn : n.1 ≤ n.2)
    (i : Nat) (hok : _find_insertion_index l n = .ok i) :
    ∀ e ∈ l, _overlaps e n = false := by
  intro e he
  have hs := chained_sorted l hc hp
  obtain ⟨k, hk, rfl⟩ := List.mem_iff_getElem.mp he
  have hne : l ≠ [] := by
    intro h0
    rw [h0] at hk
    simp at hk
  have hlt : _locate_interval_index l n < l.length := loc_lt l n hne
  have hov : _overlaps (l.getD (_locate_interval_index l n) (0, 0)) n = false := by
    unfold _find_insertion_index at hok
    rw [if_pos hlt] at hok
    by_cases h0 : _overlaps (l.getD (_locate_interval_index l n) (0, 0)) n = true
    · rw [if_pos h0] at hok
      cases hok
    · exact Bool.not_eq_true _ |>.mp h0
  rw [← getD_eq_getElem l k _ hk]
  rcases lt_trichotomy k (_locate_interval_index l n) with hlt2 | heq | hgt
  · have hpos : 0 < _locate_interval_index l n := Nat.lt_of_le_of_lt (Nat.zero_le k) hlt2
    have hchain := chained_getD l hc hp k _ hlt2 hlt
    have hprop : (l.getD k (0, 0)).1 ≤ (l.getD k (0, 0)).2 := by
      rw [getD_eq_getElem _ _ _ hk]
      exact hp _ (List.getElem_mem hk)
    have hstop : (l.getD k (0, 0)).2 ≤ n.1 := by
      by_cases hcand : n.2 ≤ (l.getD (_locate_interval_index l n) (0, 0)).1
      · have heq2 : n = l.getD (_locate_interval_index l n) (0, 0) := by
          by_contra hne2
          exact loc_at l n hpos ⟨hcand, hne2⟩
        have hdeg : ¬(n.1 < n.2) := by
          intro hdeg
          rw [← heq2, overlaps_self n hdeg] at hov
          cases hov
        have h1 := congrArg Prod.fst heq2
        omega
      · have hcstop := stop_le_of_not_overlaps _ n hov (by omega)
        have hcprop : (l.getD (_locate_interval_index l n) (0, 0)).1 ≤
            (l.getD (_locate_interval_index l n) (0, 0)).2 := by
          rw [getD_eq_getElem _ _ _ hlt]
          exact hp _ (List.getElem_mem hlt)
        omega
    exact not_overlaps_of_stop_le _ n hprop hstop
  · rw [heq]
    exact hov
  · have hsucc := loc_succ l n hs k hk hgt
    exact not_overlaps_of_le_start _ n hn hsucc

/-- A successful `_find_insertion_index` against a chained list of proper
intervals inserts within bounds and preserves chaining and properness. -/
theorem fi_ok_chained (l : List Ival) (n : Ival)
    (hc : ChainedIvs l) (hp : ProperIvs l) (hn : n.1 ≤ n.2)
    (i : Nat) (hok : _find_insertion_index l n = .ok i) :
    i ≤ l.length ∧ ChainedIvs (l.insertIdx i n) ∧ ProperIvs (l.insertIdx i n) := by
  have hs := chained_sorted l hc hp
  by_cases hnil : l = []
  · subst hnil
    have hi0 : i = 0 := by
      unfold _find_insertion_index at hok
      rw [if_neg (by simp)] at hok
      injection hok with h0
      rw [← h0, loc_base [] n (by simp)]
    subst hi0
    refine ⟨by simp, by simp [List.insertIdx_zero, ChainedIvs], ?_⟩
    intro iv hiv
    simp only [List.insertIdx_zero, List.mem_singleton] at hiv
    subst hiv
    exact hn
  · have hlt : _locate_interval_index l n < l.length := loc_lt l n hnil
    have hov : _overlaps (l.getD (_locate_interval_index l n) (0, 0)) n = false := by
      unfold _find_insertion_index at hok
      rw [if_pos hlt] at hok
      by_cases h0 : _overlaps (l.getD (_locate_interval_index l n) (0, 0)) n = true
      · rw [if_pos h0] at hok
        cases hok
      · exact Bool.not_eq_true _ |>.mp h0
    have hi : i = if n.2 ≤ (l.getD (_locate_interval_index l n) (0, 0)).1 then
        _locate_interval_index l n else _locate_interval_index l n + 1 := by
      unfold _find_insertion_index at hok
      rw [if_pos hlt, if_neg (by rw [hov]; simp)] at hok
      injection hok with h0
      rw [h0]
    have hprop : ∀ j, j < l.length → (l.getD j (0, 0)).1 ≤ (l.getD j (0, 0)).2 := by
      intro j hj
      rw [getD_eq_getElem _ _ _ hj]
      exact hp _ (List.getElem_mem hj)
    by_cases hstop : n.2 ≤ (l.getD (_locate_interval_index l n) (0, 0)).1
    · rw [if_pos hstop] at hi
      subst hi
      refine ⟨Nat.le_of_lt hlt, ?_, ?_⟩
      · refine chain'_insertIdx l _ n (Nat.le_of_lt hlt) hc ?_ ?_
        · intro hpos
          have heq2 : n = l.getD (_locate_interval_index l n) (0, 0) := by
            by_contra hne2
            exact loc_at l n hpos ⟨hstop, hne2⟩
          have h1 := congrArg Prod.fst heq2
          have hchain := chained_getD l hc hp (_locate_interval_index l n - 1)
            (_locate_interval_index l n) (by omega) hlt
          omega
        · intro _
          exact hstop
      · intro iv hiv
        rw [List.mem_insertIdx (Nat.le_of_lt hlt)] at hiv
        rcases hiv with rfl | hiv
        · exact hn
        · exact hp iv hiv
    · rw [if_neg hstop] at hi
      subst hi
      have hcstop := stop_le_of_not_overlaps _ n hov (by omega)
      refine ⟨by omega, ?_, ?_⟩
      · refine chain'_insertIdx l _ n (by omega) hc ?_ ?_
        · intro _
          rwa [show _locate_interval_index l n + 1 - 1 = _locate_interval_index l n
            from by omega]
        · intro hlt2
          exact loc_succ l n hs _ hlt2 (by omega)
      · intro iv hiv
        rw [List.mem_insertIdx (by omega)] at hiv
        rcases hiv with rfl | hiv
        · exact hn
        · exact hp iv hiv

/-- Shifting preserves chaining. -/
theorem chained_map_shift (t : Int) (l : List Ival) (h : ChainedIvs l) :
    ChainedIvs (l.map (shiftIv t)) := by
  rw [ChainedIvs, List.chain'_map]
  refine h.imp ?_
  intro a b hab
  simp only [shiftIv]
  omega

/-- Shifting preserves properness. -/
theorem proper_map_shift (t : Int) (l : List Ival) (h : ProperIvs l) :
    ProperIvs (l.map (shiftIv t)) := by
  intro iv hiv
  rw [List.mem_map] at hiv
  obtain ⟨iv0, hiv0, rfl⟩ := hiv
  have h0 := h iv0 hiv0
  simp only [shiftIv]
  omega

/-- In a chained list of proper intervals, every member stops no later
than the last interval does. -/
theorem stop_le_getLastD (l : List Ival) (hc : ChainedIvs l) (hp : ProperIvs l)
    (e : Ival) (he : e ∈ l) : e.2 ≤ (l.getLastD (0, 0)).2 := by
  obtain ⟨j, hj, rfl⟩ := List.mem_iff_getElem.mp he
  have hne : l ≠ [] := by
    intro h0
    rw [h0] at hj
    simp at hj
  have hlast : l.getLastD (0, 0) = l.getD (l.length - 1) (0, 0) := by
    rw [List.getLastD_eq_getLast?, List.getLast?_eq_getElem?, List.getD_eq_getElem?_getD]
  rcases Nat.eq_or_lt_of_le (Nat.le_sub_one_of_lt hj) with heq | hlt
  · rw [hlast, ← heq, getD_eq_getElem _ _ _ hj]
  · have h0 := chained_getD l hc hp j (l.length - 1) hlt (by omega)
    have h1 : (l.getD (l.length - 1) (0, 0)).1 ≤ (l.getD (l.length - 1) (0, 0)).2 := by
      rw [getD_eq_getElem _ _ _ (by omega)]
      exact hp _ (List.getElem_mem (by omega))
    rw [hlast]
    rw [getD_eq_getElem _ _ _ hj] at h0
    omega

/-- If some interval of the component channel (shifted by `time`) overlaps
some interval of the existing channel list, the merge loop of
`_add_timeslots` raises an overlap error. -/
theorem mergeChannel_err (time : Int) :
    ∀ (cmps cur : List Ival),
      ChainedIvs cur → ProperIvs cur → ChainedIvs cmps → ProperIvs cmps →
      (∃ x ∈ cmps, ∃ e ∈ cur, _overlaps e (shiftIv time x) = true) →
      ∃ done, mergeChannel time cur cmps = .error (.overlap, done)
  | [], cur, _, _, _, _, hov => by
    obtain ⟨x, hx, -⟩ := hov
    simp at hx
  | x :: rest, cur, hcc, hcp, hmc, hmp, hov => by
    by_cases hfast : (cur.getLastD (0, 0)).2 ≤ x.1 + time ∧ cur ≠ []
    · exfalso
      obtain ⟨x', hx', e, he, hovx⟩ := hov
      have hxx : x.1 ≤ x'.1 := by
        rcases List.mem_cons.mp hx' with rfl | hx'r
        · exact le_refl _
        · have hsorted := chained_sorted _ hmc hmp
          exact (List.pairwise_cons.mp hsorted).1 x' hx'r
      have hel := stop_le_getLastD cur hcc hcp e he
      have heP : e.1 ≤ e.2 := hcp e he
      have h0 : _overlaps e (shiftIv time x') = false := by
        refine not_overlaps_of_stop_le e _ heP ?_
        simp only [shiftIv]
        omega
      rw [h0] at hovx
      cases hovx
    · have hxp : (shiftIv time x).1 ≤ (shiftIv time x).2 := by
        have := hmp x (List.mem_cons_self x rest)
        simp only [shiftIv]
        omega
      cases hfi : _find_insertion_index cur (shiftIv time x) with
      | error e' =>
        refine ⟨cur, ?_⟩
        unfold mergeChannel
        rw [if_neg hfast, hfi]
      | ok idx =>
        have hnoov := fi_ok_no_overlap cur (shiftIv time x) hcc hcp hxp idx hfi
        obtain ⟨x', hx', e, he, hovx⟩ := hov
        have hx'r : x' ∈ rest := by
          rcases List.mem_cons.mp hx' with rfl | h0
          · exfalso
            rw [hnoov e he] at hovx
            cases hovx
          · exact h0
        have hbounds := fi_ok_chained cur (shiftIv time x) hcc hcp hxp idx hfi
        obtain ⟨done, hdone⟩ := mergeChannel_err time rest
          (cur.insertIdx idx (shiftIv time x)) hbounds.2.1 hbounds.2.2
          (List.Chain'.tail hmc) (fun iv hiv => hmp iv (List.mem_cons_of_mem x hiv))
          ⟨x', hx'r, e, (List.mem_insertIdx hbounds.1).mpr (Or.inr he), hovx⟩
        refine ⟨done, ?_⟩
        unfold mergeChannel
        rw [if_neg hfast, hfi]
        exact hdone

/-- A successful merge of a chained component channel into a chained
existing channel stays chained and proper. -/
theorem mergeChannel_ok_wf (time : Int) :
    ∀ (cmps cur merged : List Ival),
      ChainedIvs cur → ProperIvs cur → ChainedIvs cmps → ProperIvs cmps →
      mergeChannel time cur cmps = .ok merged →
      ChainedIvs merged ∧ ProperIvs merged
  | [], cur, merged, hcc, hcp, _, _, hok => by
    unfold mergeChannel at hok
    injection hok with h0
    rw [← h0]
    exact ⟨hcc, hcp⟩
  | x :: rest, cur, merged, hcc, hcp, hmc, hmp, hok => by
    unfold mergeChannel at hok
    split_ifs at hok with hfast
    · injection hok with h0
      rw [← h0]
      constructor
      · rw [ChainedIvs, List.chain'_append]
        refine ⟨hcc, chained_map_shift time _ hmc, ?_⟩
        intro a ha b hb
        simp only [List.map_cons, List.head?] at hb
        injection hb with hb
        rw [List.getLastD_eq_getLast?] at hfast
        rw [ha] at hfast
        subst hb
        simp only [shiftIv]
        exact hfast.1
      · intro iv hiv
        rw [List.mem_append] at hiv
        rcases hiv with hiv | hiv
        · exact hcp iv hiv
        · exact proper_map_shift time _ hmp iv hiv
    · have hxp : (shiftIv time x).1 ≤ (shiftIv time x).2 := by
        have := hmp x (List.mem_cons_self x rest)
        simp only [shiftIv]
        omega
      cases hfi : _find_insertion_index cur (shiftIv time x) with
      | error e' =>
        rw [hfi] at hok
        cases hok
      | ok idx =>
        rw [hfi] at hok
        have hbounds := fi_ok_chained cur (shiftIv time x) hcc hcp hxp idx hfi
        exact mergeChannel_ok_wf time rest _ merged hbounds.2.1 hbounds.2.2
          (List.Chain'.tail hmc) (fun iv hiv => hmp iv (List.mem_cons_of_mem x hiv)) hok

/-- A successful lookup exhibits a dict entry. -/
theorem lookupCh_mem (ch : Chan) :
    ∀ (ts : List (Chan × List Ival)) (l : List Ival),
      lookupCh ch ts = some l → (ch, l) ∈ ts
  | [], l, h => by cases h
  | (c, v) :: rest, l, h => by
    by_cases hc : c = ch
    · subst hc
      simp only [lookupCh, if_pos rfl] at h
      injection h with h
      subst h
      exact List.mem_cons_self _ _
    · simp only [lookupCh, if_neg hc] at h
      exact List.mem_cons_of_mem _ (lookupCh_mem ch rest l h)

/-- Updating one key leaves lookups of other keys unchanged. -/
theorem lookupCh_upsert_ne (ch c : Chan) (v : List Ival)
    (hne : c ≠ ch) :
    ∀ ts : List (Chan × List Ival), lookupCh ch (upsert c v ts) = lookupCh ch ts
  | [] => by simp [upsert, lookupCh, hne]
  | (c0, v0) :: rest => by
    by_cases hc0 : c0 = c
    · subst hc0
      simp [upsert, lookupCh, hne]
    · simp only [upsert, if_neg hc0, lookupCh]
      by_cases hch : c0 = ch
      · simp [hch]
      · simp only [if_neg hch]
        exact lookupCh_upsert_ne ch c v hne rest

/-- Every entry of an updated dict is the new entry or an old one. -/
theorem upsert_mem (c : Chan) (v : List Ival) :
    ∀ (ts : List (Chan × List Ival)) (p : Chan × List Ival),
      p ∈ upsert c v ts → p = (c, v) ∨ p ∈ ts
  | [], p, h => by
    simp only [upsert, List.mem_singleton] at h
    exact Or.inl h
  | (c0, v0) :: rest, p, h => by
    by_cases hc0 : c0 = c
    · subst hc0
      simp only [upsert, if_pos rfl] at h
      rcases List.mem_cons.mp h with rfl | h
      · exact Or.inl rfl
      · exact Or.inr (List.mem_cons_of_mem _ h)
    · simp only [upsert, if_neg hc0] at h
      rcases List.mem_cons.mp h with rfl | h
      · exact Or.inr (List.mem_cons_self _ _)
      · rcases upsert_mem c v rest p h with h | h
        · exact Or.inl h
        · exact Or.inr (List.mem_cons_of_mem _ h)

/-- If some pending channel of the component collides with the target's
existing list for that channel, the channel loop raises, leaving the
children and the cached duration of the running state untouched. -/
theorem goChans_err (time : Int) (other : List (Chan × List Ival))
    (hwo : ∀ p ∈ other, ChainedIvs p.2 ∧ ProperIvs p.2) :
    ∀ (chans : List Chan) (s : Schedule) (ch : Chan) (exl cl : List Ival),
      ch ∈ chans →
      lookupCh ch s.timeslots = some exl →
      lookupCh ch other = some cl →
      (∀ p ∈ s.timeslots, ChainedIvs p.2 ∧ ProperIvs p.2) →
      (∃ x ∈ cl, ∃ e ∈ exl, _overlaps e (shiftIv time x) = true) →
      ∃ e s2, goChans time other chans s = .error (e, s2) ∧
        s2.childList = s.childList ∧ s2.duration = s.duration
  | [], s, ch, exl, cl, hch, _, _, _, _ => by simp at hch
  | c :: rest, s, ch, exl, cl, hch, hex, hcl, hwf, hov => by
    by_cases hcc : c = ch
    · subst hcc
      have hwexl := hwf _ (lookupCh_mem c s.timeslots exl hex)
      have hwcl := hwo _ (lookupCh_mem c other cl hcl)
      obtain ⟨done, hdone⟩ := mergeChannel_err time cl exl hwexl.1 hwexl.2
        hwcl.1 hwcl.2 hov
      refine ⟨.overlap, setTs s (upsert c done s.timeslots), ?_, rfl, rfl⟩
      simp only [goChans, hcl, Option.getD_some, hex, hdone]
    · have hchr : ch ∈ rest := by
        rcases List.mem_cons.mp hch with h0 | h0
        · exact absurd h0.symm hcc
        · exact h0
      simp only [goChans]
      cases hexc : lookupCh c s.timeslots with
      | none =>
        have hwf' : ∀ p ∈ (setTs s (upsert c
            (if time = 0 then (lookupCh c other).getD []
             else ((lookupCh c other).getD []).map (shiftIv time)) s.timeslots)).timeslots,
            ChainedIvs p.2 ∧ ProperIvs p.2 := by
          intro p hp
          rcases upsert_mem _ _ _ p hp with rfl | hp
          · have hwcl2 : ChainedIvs ((lookupCh c other).getD []) ∧
                ProperIvs ((lookupCh c other).getD []) := by
              cases hoc : lookupCh c other with
              | none => exact ⟨List.chain'_nil, by intro iv hiv; simp at hiv⟩
              | some l' => exact hwo _ (lookupCh_mem c other l' hoc)
            by_cases ht : time = 0
            · simpa [ht] using hwcl2
            · simp only [if_neg ht]
              exact ⟨chained_map_shift time _ hwcl2.1, proper_map_shift time _ hwcl2.2⟩
          · exact hwf p hp
        obtain ⟨e, s2, hgo, hc2, hd2⟩ := goChans_err time other hwo rest _ ch exl cl hchr
          (by rw [setTs, Schedule.timeslots, lookupCh_upsert_ne ch c _ hcc]; exact hex)
          hcl hwf' hov
        refine ⟨e, s2, ?_, hc2, hd2⟩
        simp only [goChans, hexc]
        exact hgo
      | some exl2 =>
        cases hmg : mergeChannel time exl2 ((lookupCh c other).getD []) with
        | error p =>
          obtain ⟨e0, done⟩ := p
          refine ⟨e0, setTs s (upsert c done s.timeslots), ?_, rfl, rfl⟩
          simp only [goChans, hexc, hmg]
        | ok merged =>
          have hwexl2 := hwf _ (lookupCh_mem c s.timeslots exl2 hexc)
          have hwcl2 : ChainedIvs ((lookupCh c other).getD []) ∧
              ProperIvs ((lookupCh c other).getD []) := by
            cases hoc : lookupCh c other with
            | none => exact ⟨List.chain'_nil, by intro iv hiv; simp at hiv⟩
            | some l' => exact hwo _ (lookupCh_mem c other l' hoc)
          have hwmg := mergeChannel_ok_wf time _ exl2 merged hwexl2.1 hwexl2.2
            hwcl2.1 hwcl2.2 hmg
          have hwf' : ∀ p ∈ (setTs s (upsert c merged s.timeslots)).timeslots,
              ChainedIvs p.2 ∧ ProperIvs p.2 := by
            intro p hp
            rcases upsert_mem _ _ _ p hp with rfl | hp
            · exact hwmg
            · exact hwf p hp
          obtain ⟨e, s2, hgo, hc2, hd2⟩ := goChans_err time other hwo rest _ ch exl cl hchr
            (by rw [setTs, Schedule.timeslots, lookupCh_upsert_ne ch c _ hcc]; exact hex)
            hcl hwf' hov
          refine ⟨e, s2, ?_, hc2, hd2⟩
          simp only [goChans, hexc, hmg]
          exact hgo

/-- Any component's timeslot map is per-channel chained and proper: an
instruction occupies a single `[(0, duration)]` slot per channel, and a
well-formed nested schedule carries a well-formed map. -/
theorem wfcomp_get_timeslots (c : Component) (hc : WfComp c) :
    ∀ p ∈ _get_timeslots c, ChainedIvs p.2 ∧ ProperIvs p.2 := by
  intro p hp
  cases c with
  | inst i =>
    simp only [_get_timeslots, List.mem_map] at hp
    obtain ⟨ch, -, rfl⟩ := hp
    refine ⟨List.chain'_singleton _, ?_⟩
    intro iv hiv
    simp only [List.mem_singleton] at hiv
    subst hiv
    simp
  | sched sub =>
    exact ⟨(hc.2 p hp).1, (hc.2 p hp).2.1⟩

/-- If some channel of the component, shifted to the offset, overlaps an
existing interval of the target, `_add_timeslots` raises; the state it
leaves carries the untouched children and the already-updated cached
duration `max(old, offset + component duration)`. -/
theorem add_timeslots_err (time : Int) (comp : Component) (s : Schedule)
    (hwf : ∀ p ∈ s.timeslots, ChainedIvs p.2 ∧ ProperIvs p.2)
    (hwo : ∀ p ∈ _get_timeslots comp, ChainedIvs p.2 ∧ ProperIvs p.2)
    (hov : overlapAtB time comp s = true) :
    ∃ e s2, _add_timeslots time comp s = .error (e, s2) ∧
      s2.childList = s.childList ∧
      s2.duration = max s.duration (time + compDuration comp) := by
  rw [overlapAtB, List.any_eq_true] at hov
  obtain ⟨ch, hch, hm⟩ := hov
  cases hex : lookupCh ch s.timeslots with
  | none =>
    cases hlk : lookupCh ch (_get_timeslots comp) with
    | none =>
      simp only [hex, hlk] at hm
      exact Bool.noConfusion hm
    | some cl =>
      simp only [hex, hlk] at hm
      exact Bool.noConfusion hm
  | some exl =>
    cases hcl : lookupCh ch (_get_timeslots comp) with
    | none =>
      simp only [hex, hcl] at hm
      exact Bool.noConfusion hm
    | some cl =>
      simp only [hex, hcl, List.any_eq_true] at hm
      obtain ⟨x, hx, e, he, hm⟩ := hm
      obtain ⟨e0, s2, hgoe, hc2, hd2⟩ := goChans_err time (_get_timeslots comp) hwo
        (compChannels comp) (setDur s (max s.duration (time + compDuration comp)))
        ch exl cl hch hex hcl hwf ⟨x, hx, e, he, hm⟩
      refine ⟨e0, s2, ?_, ?_, ?_⟩
      · simp only [_add_timeslots]
        rw [hgoe]
      · rw [hc2]
        rfl
      · rw [hd2]
        rfl

/-- C1 (amended): for every well-formed schedule T and component C that
does not trigger the special drive-channel merging path, if C's channel
intervals shifted to the chosen offset would overlap an existing interval
of T on some channel, then insert fails with a PulseError in both
variants.  The copy-on-write variant produces no schedule, leaving T
untouched; the in-place variant leaves the children list unchanged but has
already updated the cached duration to `max(old, offset + C.duration)`
(and may leave already-processed channels' timeslots merged) when the
error propagates — the operation is not atomic. -/
theorem insert_overlap_fails (t : Int) (c : Component) (s : Schedule)
    (hw : WfTs s.timeslots) (hwc : WfComp c)
    (hdp : dpTriggers s c = false)
    (hov : overlapAtB t c s = true) :
    (∃ e s2, _mutable_insert t c s = .error (e, s2) ∧
      s2.childList = s.childList ∧
      s2.duration = max s.duration (t + compDuration c)) ∧
    (∃ e, _immutable_insert t c s = .error e) := by
  have hwf : ∀ p ∈ s.timeslots, ChainedIvs p.2 ∧ ProperIvs p.2 :=
    fun p hp => ⟨(hw.2 p hp).1, (hw.2 p hp).2.1⟩
  have hwo := wfcomp_get_timeslots c hwc
  obtain ⟨e, s2, hadd, hc2, hd2⟩ := add_timeslots_err t c s hwf hwo hov
  constructor
  · refine ⟨e, s2, ?_, hc2, hd2⟩
    simp only [_mutable_insert, hadd]
  · have hnn : _check_nonnegative_timeslot
        (s.timeslots.map fun p => (p.1, p.2.map (shiftIv 0))) = true := by
      apply checkNonneg_shifted
      intro p hp iv hiv
      have h0 := (hw.2 p hp).2.2.1 iv hiv
      omega
    have hemp := mutable_insert_empty 0 s hw.1 hnn
    have hts0 : (s.timeslots.map fun p => (p.1, p.2.map (shiftIv 0))) = s.timeslots := by
      simp [map_shiftIv_zero]
    rw [hts0] at hemp
    obtain ⟨e2, s2', hadd2, -, -⟩ := add_timeslots_err t c
      (.mk (max 0 (0 + s.duration)) s.timeslots (.cons 0 (.sched s) .nil)) hwf hwo hov
    refine ⟨e2, ?_⟩
    unfold _immutable_insert
    rw [hemp]
    simp only [_mutable_insert, hadd2]

/-- C1 counterexample: inserting a colliding duration-100 leaf at offset
50 into `schedOld` (one duration-100 leaf on `d0`) raises the overlap
error, but the in-place target's cached duration has already been updated
from 100 to 150 when the exception propagates — the claim's "duration
unchanged afterward" fails. -/
theorem insert_partial_mutation_cex :
    _mutable_insert 50 (.inst clashInst) schedOld =
        .error (.overlap, .mk 150 [("d0", [(0, 100)])] (.cons 0 (.inst oldInst) .nil)) ∧
      schedOld.duration = 100 ∧
      (Schedule.mk 150 [("d0", [(0, 100)])] (.cons 0 (.inst oldInst) .nil)).duration = 150 :=
  ⟨rfl, rfl, rfl⟩

/-- Witness for C1's amended statement at the concrete collision: both
insert variants fail, the in-place error state keeps the children and
holds duration `max 100 (50 + 100)`. -/
theorem insert_overlap_fails_witness :
    (∃ e s2, _mutable_insert 50 (.inst clashInst) schedOld = .error (e, s2) ∧
      s2.childList = schedOld.childList ∧
      s2.duration = max schedOld.duration (50 + compDuration (.inst clashInst))) ∧
    (∃ e, _immutable_insert 50 (.inst clashInst) schedOld = .error e) :=
  insert_overlap_fails 50 (.inst clashInst) schedOld
    (by constructor
        · decide
        · intro p hp
          fin_cases hp
          refine ⟨?_, ?_, ?_, ?_⟩
          · exact List.chain'_singleton _
          · intro iv hiv
            fin_cases hiv
            decide
          · intro iv hiv
            fin_cases hiv
            decide
          · decide)
    trivial (by decide) (by decide)
